import Mathlib

/-!
Verification of the stb_json single-header JSON library (src/stb_json.h)
against its natural-language specification.

Modelling conventions used throughout this file:

* C byte strings are modelled as `List Nat` (one `Nat` per byte, values < 256);
  the terminating NUL byte is implicit unless stated otherwise.  Reads past the
  end of a modelled buffer yield 0, matching the NUL terminator of the C buffer.
* C `double` values are modelled as exact rationals (`ℚ`).  IEEE-754 rounding,
  NaN and infinities are not modelled; claims that hinge on binary64 rounding or
  on `%g` formatting are reported as not statable rather than proved against
  this idealisation.  Where a C function can return NaN (the accessors of
  claim C10) the result type `CDouble` has an explicit `nan` constructor.
* C `int` is modelled as `Int`; the saturation logic of the source
  (`INT_MAX` / `INT_MIN` clamping) is translated explicitly.
* The `stb_json` struct's sibling lists (`next`/`prev`/`child` pointers) are
  modelled at two levels: as plain `List Value` children for the tree-semantic
  claims, and as an explicit pointer heap (`Heap`, `CNode`) for the linked-list
  invariant claim C9.
* In-place mutation is modelled by state passing: a C function that mutates a
  buffer or a tree returns the new buffer or tree.
-/

namespace StbJson

/-- Byte strings: one `Nat` per byte. -/
abbrev Bytes := List Nat

/-- The value kinds of `stb_json` (the low byte of the `type` bit field):
`STB_JSON_INVALID/FALSE/TRUE/NULL/NUMBER/STRING/ARRAY/OBJECT/RAW`. -/
inductive JKind where
  | invalid
  | jfalse
  | jtrue
  | jnull
  | number
  | jstring
  | array
  | object
  | raw
deriving DecidableEq

/-- The `stb_json` node (src/stb_json.h lines 96-105).  The `type` bit field is
split into its kind (`type & 0xFF`) and the two flag bits
`STB_JSON_IS_REFERENCE` and `STB_JSON_STRING_IS_CONST`.  The `next`/`prev`
sibling pointers of the C struct are replaced by the parent's `children` list;
`string` is the object key of the node (NULL modelled as `none`). -/
inductive Value where
  | mk (kind : JKind) (is_reference : Bool) (string_is_const : Bool)
       (valuestring : Option Bytes) (valueint : Int) (valuedouble : ℚ)
       (string : Option Bytes) (children : List Value)

def Value.kind : Value → JKind
  | .mk k _ _ _ _ _ _ _ => k

def Value.is_reference : Value → Bool
  | .mk _ r _ _ _ _ _ _ => r

def Value.string_is_const : Value → Bool
  | .mk _ _ c _ _ _ _ _ => c

def Value.valuestring : Value → Option Bytes
  | .mk _ _ _ vs _ _ _ _ => vs

def Value.valueint : Value → Int
  | .mk _ _ _ _ vi _ _ _ => vi

def Value.valuedouble : Value → ℚ
  | .mk _ _ _ _ _ vd _ _ => vd

/-- The object key of a node (the `string` field of the C struct). -/
def Value.key : Value → Option Bytes
  | .mk _ _ _ _ _ _ s _ => s

def Value.children : Value → List Value
  | .mk _ _ _ _ _ _ _ ch => ch

/-- A zeroed node as produced by `stb_json_new_item` (memset to 0). -/
def Value.zero : Value := .mk .invalid false false none 0 0 none []

mutual

/-- Decidable equality of values, by structural recursion (so that the kernel
can evaluate it inside `decide`). -/
def valueDecEq : (a b : Value) → Decidable (a = b)
  | .mk k1 r1 c1 vs1 vi1 vd1 s1 ch1, .mk k2 r2 c2 vs2 vi2 vd2 s2 ch2 =>
    if h : k1 = k2 ∧ r1 = r2 ∧ c1 = c2 ∧ vs1 = vs2 ∧ vi1 = vi2 ∧ vd1 = vd2 ∧ s1 = s2 then
      match valueListDecEq ch1 ch2 with
      | isTrue hc => isTrue (by
          obtain ⟨rfl, rfl, rfl, rfl, rfl, rfl, rfl⟩ := h
          rw [hc])
      | isFalse hc => isFalse (by intro e; cases e; exact hc rfl)
    else isFalse (by intro e; cases e; exact h ⟨rfl, rfl, rfl, rfl, rfl, rfl, rfl⟩)
termination_by structural a _ => a

def valueListDecEq : (l1 l2 : List Value) → Decidable (l1 = l2)
  | [], [] => isTrue rfl
  | _ :: _, [] => isFalse (by intro e; cases e)
  | [], _ :: _ => isFalse (by intro e; cases e)
  | a :: as, b :: bs =>
    match valueDecEq a b with
    | isTrue h1 =>
      match valueListDecEq as bs with
      | isTrue h2 => isTrue (by rw [h1, h2])
      | isFalse h2 => isFalse (by intro e; cases e; exact h2 rfl)
    | isFalse h1 => isFalse (by intro e; cases e; exact h1 rfl)
termination_by structural l1 _ => l1

end

instance : DecidableEq Value := valueDecEq

/-- ASCII `tolower` as used by the source (C locale: only A-Z fold). -/
def tolowerB (c : Nat) : Nat := if 65 ≤ c ∧ c ≤ 90 then c + 32 else c

/-- `strcmp` on NUL-terminated byte strings (terminator implicit).  Returns the
difference of the first differing bytes, 0 when equal. -/
def strcmpB : Bytes → Bytes → Int
  | [], [] => 0
  | [], c :: _ => 0 - (c : Int)
  | c :: _, [] => (c : Int)
  | a :: as, b :: bs => if a = b then strcmpB as bs else (a : Int) - (b : Int)

/-- `case_insensitive_strcmp` (src lines 323-330) restricted to present
strings; the NULL checks of the C function live in `compare_strings`. -/
def case_insensitive_strcmp : Bytes → Bytes → Int
  | [], [] => 0
  | [], c :: _ => 0 - (tolowerB c : Int)
  | c :: _, [] => (tolowerB c : Int)
  | a :: as, b :: bs =>
      if tolowerB a = tolowerB b then case_insensitive_strcmp as bs
      else (tolowerB a : Int) - (tolowerB b : Int)

/-- `compare_strings` (src lines 1775-1779).  A NULL string on either side
gives 1; the pointer-equality shortcut of the source is subsumed by the
byte-wise comparison. -/
def compare_strings (s1 s2 : Option Bytes) (case_sensitive : Bool) : Int :=
  match s1, s2 with
  | some a, some b => if case_sensitive then strcmpB a b else case_insensitive_strcmp a b
  | _, _ => 1

/-!
### Exact rational arithmetic for the modelled C doubles

The C `double` operations are idealised as exact rational arithmetic.  The
operations are spelled through `Rat.divInt` (rather than the `+`/`-`/`*`
instances of `ℚ`, which are sealed against kernel reduction) so that concrete
counterexamples can be checked by `decide`; each operation equals the
corresponding field operation of `ℚ`.
-/

/-- Exact negation of a modelled double. -/
def qneg (a : ℚ) : ℚ := Rat.divInt (-a.num) a.den

/-- Exact addition of modelled doubles. -/
def qadd (a b : ℚ) : ℚ := Rat.divInt (a.num * b.den + b.num * a.den) (a.den * b.den)

/-- Exact subtraction of modelled doubles. -/
def qsub (a b : ℚ) : ℚ := Rat.divInt (a.num * b.den - b.num * a.den) (a.den * b.den)

/-- Exact multiplication of modelled doubles. -/
def qmul (a b : ℚ) : ℚ := Rat.divInt (a.num * b.num) (a.den * b.den)

/-- Exact division of modelled doubles. -/
def qdiv (a b : ℚ) : ℚ := Rat.divInt (a.num * b.den) (a.den * b.num)

/-- C `fabs` on a modelled double. -/
def qabs (a : ℚ) : ℚ := if a < 0 then qneg a else a

/-- `DBL_EPSILON` of IEEE-754 binary64 (`2^-52`), as an exact rational. -/
def DBL_EPSILON : ℚ := Rat.divInt 1 4503599627370496

/-- `compare_double` (src lines 691-694): `|a-b| <= max(|a|,|b|) * DBL_EPSILON`,
with the subtraction and multiplication idealised as exact rational
arithmetic. -/
def compare_double (a b : ℚ) : Bool :=
  let maxVal := if qabs a > qabs b then qabs a else qabs b
  decide (qabs (qsub a b) ≤ qmul maxVal DBL_EPSILON)

/-- The key comparison performed inside `stb_json_compare` for object members:
`strcmp` or `case_insensitive_strcmp` on the two key fields.  A NULL key
(which the C code would dereference) is treated as unequal. -/
def keysDiffer (k1 k2 : Option Bytes) (case_sensitive : Bool) : Bool :=
  match k1, k2 with
  | some x, some y =>
      if case_sensitive then strcmpB x y ≠ 0 else case_insensitive_strcmp x y ≠ 0
  | _, _ => true

mutual

/-- The stand-alone structural comparator `stb_json_compare` (src lines
1730-1765) on non-NULL nodes.  The pointer-equality shortcut `a == b` of the
source is not representable in the value model and is dropped. -/
def stb_json_compare_core : Value → Value → Bool → Bool
  | .mk ka _ _ vsa _ vda _ cha, .mk kb _ _ vsb _ vdb _ chb, case_sensitive =>
    if ka ≠ kb then false
    else
      match ka with
      | .jfalse => true
      | .jtrue => true
      | .jnull => true
      | .number => compare_double vda vdb
      | .jstring =>
          match vsa, vsb with
          | some x, some y => x = y
          | _, _ => false
      | .raw =>
          match vsa, vsb with
          | some x, some y => x = y
          | _, _ => false
      | .array => stb_json_compare_children cha chb case_sensitive
      | .object => stb_json_compare_object_children cha chb case_sensitive
      | _ => false
termination_by structural a _ _ => a

/-- The element walk of `stb_json_compare` for arrays: pairwise comparison in
stored order, equal lengths required. -/
def stb_json_compare_children : List Value → List Value → Bool → Bool
  | [], [], _ => true
  | [], _ :: _, _ => false
  | _ :: _, [], _ => false
  | a :: as, b :: bs, case_sensitive =>
    if stb_json_compare_core a b case_sensitive then
      stb_json_compare_children as bs case_sensitive
    else false
termination_by structural l _ _ => l

/-- The member walk of `stb_json_compare` for objects: identical stored order
of keys is required (keys compared by `strcmp` or ASCII-case fold). -/
def stb_json_compare_object_children : List Value → List Value → Bool → Bool
  | [], [], _ => true
  | [], _ :: _, _ => false
  | _ :: _, [], _ => false
  | a :: as, b :: bs, case_sensitive =>
    if keysDiffer a.key b.key case_sensitive then false
    else if stb_json_compare_core a b case_sensitive then
      stb_json_compare_object_children as bs case_sensitive
    else false
termination_by structural l _ _ => l

end

/-- `stb_json_compare` including the NULL checks of the source
(`!a || !b` gives false). -/
def stb_json_compare (a b : Option Value) (case_sensitive : Bool) : Bool :=
  match a, b with
  | some x, some y => stb_json_compare_core x y case_sensitive
  | _, _ => false

/-! ### Public accessors (claim C10)

Each accessor takes an `Option Value`: `none` models a NULL pointer argument.
-/

/-- A C `double` result that may be NaN (for the number accessors). -/
inductive CDouble where
  | nan
  | val (q : ℚ)
deriving DecidableEq

def stb_json_isinvalid (item : Option Value) : Bool :=
  match item with
  | none => false
  | some v => v.kind = .invalid

def stb_json_isfalse (item : Option Value) : Bool :=
  match item with
  | none => false
  | some v => v.kind = .jfalse

def stb_json_istrue (item : Option Value) : Bool :=
  match item with
  | none => false
  | some v => v.kind = .jtrue

/-- `stb_json_isbool`: `type & (STB_JSON_FALSE|STB_JSON_TRUE)` is nonzero. -/
def stb_json_isbool (item : Option Value) : Bool :=
  match item with
  | none => false
  | some v => v.kind = .jfalse ∨ v.kind = .jtrue

def stb_json_isnull (item : Option Value) : Bool :=
  match item with
  | none => false
  | some v => v.kind = .jnull

def stb_json_isnumber (item : Option Value) : Bool :=
  match item with
  | none => false
  | some v => v.kind = .number

def stb_json_isstring (item : Option Value) : Bool :=
  match item with
  | none => false
  | some v => v.kind = .jstring

def stb_json_isarray (item : Option Value) : Bool :=
  match item with
  | none => false
  | some v => v.kind = .array

def stb_json_isobject (item : Option Value) : Bool :=
  match item with
  | none => false
  | some v => v.kind = .object

def stb_json_israw (item : Option Value) : Bool :=
  match item with
  | none => false
  | some v => v.kind = .raw

/-- `stb_json_getnumbervalue` (src lines 284-287): NAN unless the argument is
a non-NULL number node. -/
def stb_json_getnumbervalue (item : Option Value) : CDouble :=
  if ¬ stb_json_isnumber item then .nan
  else match item with
       | some v => .val v.valuedouble
       | none => .nan

/-- `stb_json_getnumberint` (src lines 294-297): 0 unless the argument is a
non-NULL number node. -/
def stb_json_getnumberint (item : Option Value) : Int :=
  if ¬ stb_json_isnumber item then 0
  else match item with
       | some v => v.valueint
       | none => 0

/-- `stb_json_getnumberdouble` (src lines 304-307): same body as
`stb_json_getnumbervalue`. -/
def stb_json_getnumberdouble (item : Option Value) : CDouble :=
  if ¬ stb_json_isnumber item then .nan
  else match item with
       | some v => .val v.valuedouble
       | none => .nan

/-- `stb_json_getarraysize` (src lines 1189-1195): 0 for NULL, otherwise the
length of the child list (regardless of the node's kind). -/
def stb_json_getarraysize (array : Option Value) : Int :=
  match array with
  | none => 0
  | some v => (v.children.length : Int)

/-- `get_array_item` (src lines 1197-1201): walk the child list. -/
def get_array_item (array : Option Value) (index : Nat) : Option Value :=
  match array with
  | none => none
  | some v => v.children.get? index

/-- `stb_json_getarrayitem` (src lines 1203-1206): NULL for every negative
index. -/
def stb_json_getarrayitem (array : Option Value) (index : Int) : Option Value :=
  if index < 0 then none else get_array_item array index.toNat

/-- A number node with the given double and integer projection, the remaining
fields zeroed (as built by the parser or `stb_json_createnumber`). -/
def numberV (d : ℚ) (i : Int) : Value := .mk .number false false none i d none []

/-! ### Parser (src lines 497-1129, 854-921)

The `parse_buffer` struct and the recursive-descent parser.  Loops and the
mutual recursion are driven by an explicit fuel parameter (the C recursion is
bounded because every step consumes input); the fuel chosen by the entry
points is far larger than the number of parser steps possible on the given
buffer, so it never runs out.  The thread-local error cursor of the source is
not modelled: a failed parse is `none`.
-/

/-- `parse_buffer` (src lines 497-503), without the allocator hooks. -/
structure ParseBuffer where
  content : List Nat
  length : Nat
  offset : Nat
  depth : Nat
deriving DecidableEq

/-- `can_read` macro: `offset + size <= length`. -/
def can_read (b : ParseBuffer) (size : Nat) : Bool := b.offset + size ≤ b.length

/-- `can_access_at_index` macro: `offset + index < length`. -/
def can_access_at_index (b : ParseBuffer) (index : Nat) : Bool := b.offset + index < b.length

/-- `buffer_at_offset(buffer)[i]`: the byte at `offset + i`.  Reads beyond the
supplied byte list give 0, the NUL terminator of the C buffer. -/
def byte_at_offset (b : ParseBuffer) (index : Nat) : Nat := b.content.getD (b.offset + index) 0

/-- The bytes at the current offset (for the `strncmp` literal matches). -/
def takeBytes (b : ParseBuffer) (n : Nat) : List Nat := (b.content.drop b.offset).take n

def ParseBuffer.advance (b : ParseBuffer) (n : Nat) : ParseBuffer :=
  ⟨b.content, b.length, b.offset + n, b.depth⟩

def ParseBuffer.retreat (b : ParseBuffer) : ParseBuffer :=
  ⟨b.content, b.length, b.offset - 1, b.depth⟩

def ParseBuffer.depthInc (b : ParseBuffer) : ParseBuffer :=
  ⟨b.content, b.length, b.offset, b.depth + 1⟩

def ParseBuffer.depthDec (b : ParseBuffer) : ParseBuffer :=
  ⟨b.content, b.length, b.offset, b.depth - 1⟩

/-- The loop of `buffer_skip_whitespace`: skip bytes `<= 32` while in bounds. -/
def skip_ws_loop : Nat → ParseBuffer → ParseBuffer
  | 0, b => b
  | f + 1, b =>
      if can_access_at_index b 0 ∧ byte_at_offset b 0 ≤ 32 then
        skip_ws_loop f (b.advance 1)
      else b

/-- The final clamp of `buffer_skip_whitespace`:
`if (offset == length) offset--`. -/
def clamp_offset (b : ParseBuffer) : ParseBuffer :=
  if b.offset = b.length then b.retreat else b

/-- `buffer_skip_whitespace` (src lines 854-859).  The fuel bounds the loop
iterations; the loop advances at most `length - offset` times, so the fuel
never runs out. -/
def buffer_skip_whitespace (b : ParseBuffer) : ParseBuffer :=
  clamp_offset (skip_ws_loop (b.length - b.offset + 1) b)

/-- `skip_utf8_bom` (src lines 861-867); only called at offset 0. -/
def skip_utf8_bom (b : ParseBuffer) : ParseBuffer :=
  if can_access_at_index b 4 ∧ takeBytes b 3 = [239, 187, 191] then b.advance 3 else b

/-- `INT_MAX` of the target platform (32-bit int). -/
def INT_MAX : Int := 2147483647

/-- `INT_MIN` of the target platform (32-bit int). -/
def INT_MIN : Int := -2147483648

/-- A natural number as a modelled double. -/
def qofNat (n : Nat) : ℚ := Rat.divInt (n : Int) 1

/-- Truncation of a modelled double towards zero (the C cast `(int)d`). -/
def qtrunc (q : ℚ) : Int := q.num.tdiv (q.den : Int)

/-- `10^e` as a modelled double. -/
def qpow10 (e : Nat) : ℚ := Rat.divInt ((10 : Int) ^ e) 1

/-- Integer-part loop of `stb_json_strtod`: `value = value*10 + digit`. -/
def strtod_int_loop : Bytes → ℚ → ℚ × Bytes
  | [], acc => (acc, [])
  | c :: rest, acc =>
      if 48 ≤ c ∧ c ≤ 57 then strtod_int_loop rest (qadd (qmul acc (qofNat 10)) (qofNat (c - 48)))
      else (acc, c :: rest)

/-- Fraction loop of `stb_json_strtod`: `fraction = fraction*10 + digit`,
`frac_divisor *= 10`. -/
def strtod_frac_loop : Bytes → ℚ → ℚ → ℚ × ℚ × Bytes
  | [], f, d => (f, d, [])
  | c :: rest, f, d =>
      if 48 ≤ c ∧ c ≤ 57 then
        strtod_frac_loop rest (qadd (qmul f (qofNat 10)) (qofNat (c - 48))) (qmul d (qofNat 10))
      else (f, d, c :: rest)

/-- Exponent-digit loop of `stb_json_strtod`: `exponent = exponent*10 + digit`
(the C `int` accumulator is idealised as `Nat`). -/
def strtod_exp_loop : Bytes → Nat → Nat × Bytes
  | [], e => (e, [])
  | c :: rest, e =>
      if 48 ≤ c ∧ c ≤ 57 then strtod_exp_loop rest (e * 10 + (c - 48))
      else (e, c :: rest)

/-- `stb_json_strtod` (src lines 513-565): the locally written decimal parser.
The argument is the extracted number token (NUL terminator implicit at the end
of the list); the result is the value (exact rational idealisation of the C
double arithmetic, including `value + fraction/frac_divisor` and the
`pow(10, exponent)` scaling) together with the number of bytes consumed
(`endptr - nptr`). -/
def stb_json_strtod (nptr : Bytes) : ℚ × Nat :=
  let (neg, p1) :=
    match nptr with
    | 45 :: rest => (true, rest)
    | 43 :: rest => (false, rest)
    | _ => (false, nptr)
  let (value, p2) := strtod_int_loop p1 (qofNat 0)
  let (fraction, frac_divisor, p3) :=
    match p2 with
    | 46 :: rest => strtod_frac_loop rest (qofNat 0) (qofNat 1)
    | _ => (qofNat 0, qofNat 1, p2)
  let (exp_sign_neg, exponent, p4) :=
    match p3 with
    | 101 :: rest =>
        (match rest with
         | 45 :: r2 => (let (e, p) := strtod_exp_loop r2 0; (true, e, p))
         | 43 :: r2 => (let (e, p) := strtod_exp_loop r2 0; (false, e, p))
         | _ => (let (e, p) := strtod_exp_loop rest 0; (false, e, p)))
    | 69 :: rest =>
        (match rest with
         | 45 :: r2 => (let (e, p) := strtod_exp_loop r2 0; (true, e, p))
         | 43 :: r2 => (let (e, p) := strtod_exp_loop r2 0; (false, e, p))
         | _ => (let (e, p) := strtod_exp_loop rest 0; (false, e, p)))
    | _ => (false, 0, p3)
  let consumed := nptr.length - p4.length
  let value1 := qadd value (qdiv fraction frac_divisor)
  let value2 :=
    if exponent ≠ 0 then
      (if exp_sign_neg then qdiv value1 (qpow10 exponent) else qmul value1 (qpow10 exponent))
    else value1
  (if neg then qneg value2 else value2, consumed)

/-- The character class scanned by `parse_number`: digits, `+`, `-`, `e`, `E`
and `.`. -/
def isNumByte (c : Nat) : Bool :=
  (48 ≤ c ∧ c ≤ 57) ∨ c = 43 ∨ c = 45 ∨ c = 101 ∨ c = 69 ∨ c = 46

/-- The scanning loop of `parse_number` (src lines 577-587): the length of the
longest prefix of number bytes within the buffer bounds. -/
def number_scan_loop (b : ParseBuffer) : Nat → Nat → Nat
  | 0, i => i
  | f + 1, i =>
      if can_access_at_index b i ∧ isNumByte (byte_at_offset b i) then
        number_scan_loop b f (i + 1)
      else i

/-- The saturation of a double into the `valueint` field (src lines 611-613):
clamp to `INT_MAX`/`INT_MIN`, otherwise truncate. -/
def saturate_int (number : ℚ) : Int :=
  if number ≥ qofNat 2147483647 then INT_MAX
  else if number ≤ Rat.divInt (-2147483648) 1 then INT_MIN
  else qtrunc number

/-- `parse_number` (src lines 567-619).  The decimal-point replacement of the
source is the identity because `get_decimal_point` always returns `'.'`. -/
def parse_number (b : ParseBuffer) : Option (Value × ParseBuffer) :=
  let len := number_scan_loop b (b.length + 1) 0
  if len = 0 then none
  else
    let token := takeBytes b len
    let (number, consumed) := stb_json_strtod token
    if consumed = 0 then none
    else some (numberV number (saturate_int number), b.advance consumed)

/-- `parse_hex4` (src lines 332-343): decode four hex digits, 0 on any
non-hex byte (so `\u0000` is indistinguishable from an invalid quad, as the
spec notes). -/
def parse_hex4 (input : Bytes) : Nat :=
  let dv : Nat → Option Nat := fun c =>
    if 48 ≤ c ∧ c ≤ 57 then some (c - 48)
    else if 65 ≤ c ∧ c ≤ 70 then some (c - 55)
    else if 97 ≤ c ∧ c ≤ 102 then some (c - 87)
    else none
  match dv (input.getD 0 0), dv (input.getD 1 0), dv (input.getD 2 0), dv (input.getD 3 0) with
  | some v0, some v1, some v2, some v3 => ((v0 * 16 + v1) * 16 + v2) * 16 + v3
  | _, _, _, _ => 0

/-- `utf16_to_utf8` (src lines 352-395).  `input` starts at the backslash of
`\uXXXX` and extends to the end of the buffer; the result is the UTF-8 byte
sequence and the number of input bytes consumed (6 or 12), or `none` on the
failures of the source (buffer too short, invalid or zero hex quad, lone or
mismatched surrogate).  The surrogate-pair combination is
`0x10000 + ((hi & 0x3FF) << 10 | (lo & 0x3FF))` (src line 366), written in
arithmetic form (the codes are below 2^16, so the mask is `% 1024`, the shift
`* 1024`, and the bitwise-or a sum of disjoint parts). -/
def utf16_to_utf8 (input : Bytes) : Option (List Nat × Nat) :=
  if input.length < 6 then none
  else
    let first_code := parse_hex4 (input.drop 2)
    if first_code = 0 then none
    else if 55296 ≤ first_code ∧ first_code ≤ 56319 then
      if input.length < 12 then none
      else if input.getD 6 0 ≠ 92 ∨ input.getD 7 0 ≠ 117 then none
      else
        let second_code := parse_hex4 (input.drop 8)
        if second_code < 56320 ∨ second_code > 57343 then none
        else
          let codepoint := 65536 + (first_code % 1024) * 1024 + second_code % 1024
          some ([240 + codepoint / 262144,
                 128 + codepoint / 4096 % 64,
                 128 + codepoint / 64 % 64,
                 128 + codepoint % 64], 12)
    else
      if first_code < 128 then some ([first_code], 6)
      else if first_code < 2048 then
        some ([192 + first_code / 64, 128 + first_code % 64], 6)
      else
        some ([224 + first_code / 4096,
               128 + first_code / 64 % 64,
               128 + first_code % 64], 6)

/-- Modelled from the spec: the body of `parse_string` is absent from the
files under src/ (the function is called at src lines 943 and 1107 but never
defined there).  This decoding loop follows spec §4.1 "Strings": the string is
delimited by `"`; the escapes `\" \\ \/ \b \f \n \r \t` map to their ASCII
values; `\uXXXX` is decoded through `utf16_to_utf8` (which enforces the
surrogate rules and rejects a zero quad); any other escape fails the parse;
non-escape bytes are copied verbatim; an unterminated string fails.  The
arguments are the remaining bytes after the opening quote and the accumulator
(reversed); the result is the decoded bytes and the input remaining after the
closing quote. -/
def decode_string_loop : Nat → Bytes → List Nat → Option (List Nat × Bytes)
  | 0, _, _ => none
  | _ + 1, [], _ => none
  | f + 1, c :: rest, acc =>
      if c = 34 then some (acc.reverse, rest)
      else if c = 92 then
        match rest with
        | 34 :: r2 => decode_string_loop f r2 (34 :: acc)
        | 92 :: r2 => decode_string_loop f r2 (92 :: acc)
        | 47 :: r2 => decode_string_loop f r2 (47 :: acc)
        | 98 :: r2 => decode_string_loop f r2 (8 :: acc)
        | 102 :: r2 => decode_string_loop f r2 (12 :: acc)
        | 110 :: r2 => decode_string_loop f r2 (10 :: acc)
        | 114 :: r2 => decode_string_loop f r2 (13 :: acc)
        | 116 :: r2 => decode_string_loop f r2 (9 :: acc)
        | 117 :: _ =>
            (match utf16_to_utf8 (92 :: rest) with
             | some (bytes, consumed) =>
                 decode_string_loop f ((92 :: rest).drop consumed) (bytes.reverse ++ acc)
             | none => none)
        | _ => none
      else decode_string_loop f rest (c :: acc)

/-- Modelled from the spec: `parse_string` (see `decode_string_loop`).  The
buffer must be positioned at an opening quote; on success the buffer is
positioned after the closing quote and the result is a string node carrying
the decoded bytes. -/
def parse_string (b : ParseBuffer) : Option (Value × ParseBuffer) :=
  if ¬ (can_access_at_index b 0 ∧ byte_at_offset b 0 = 34) then none
  else
    let region := (b.content.take b.length).drop (b.offset + 1)
    match decode_string_loop (region.length + 1) region [] with
    | none => none
    | some (decoded, remaining) =>
        some (.mk .jstring false false (some decoded) 0 0 none [],
              b.advance (1 + (region.length - remaining.length)))

/-- `STB_JSON_NESTING_LIMIT` (src lines 83-85), at its default value. -/
def STB_JSON_NESTING_LIMIT : Nat := 1000

/-- The bytes of `"null"`. -/
def nullLit : List Nat := [110, 117, 108, 108]

/-- The bytes of `"false"`. -/
def falseLit : List Nat := [102, 97, 108, 115, 101]

/-- The bytes of `"true"`. -/
def trueLit : List Nat := [116, 114, 117, 101]

def nullVal : Value := .mk .jnull false false none 0 0 none []

def falseVal : Value := .mk .jfalse false false none 0 0 none []

/-- `true` sets `valueint` to 1 (src line 938). -/
def trueVal : Value := .mk .jtrue false false none 1 0 none []

def arrayVal (ch : List Value) : Value := .mk .array false false none 0 0 none ch

def objectVal (ch : List Value) : Value := .mk .object false false none 0 0 none ch

/-- Attach an object key to a parsed member value (the move
`current_item->string = current_item->valuestring` of src lines 1110-1111). -/
def Value.withKey : Value → Option Bytes → Value
  | .mk k r c vs vi vd _ ch, s => .mk k r c vs vi vd s ch

mutual

/-- `parse_value` (src lines 923-955): dispatch on the literals, `"`,
`-`/digit, `[` and `{`.  Note that `+` is not in the dispatch set. -/
def parse_value : Nat → ParseBuffer → Option (Value × ParseBuffer)
  | 0, _ => none
  | f + 1, b =>
      if can_read b 4 ∧ takeBytes b 4 = nullLit then
        some (nullVal, b.advance 4)
      else if can_read b 5 ∧ takeBytes b 5 = falseLit then
        some (falseVal, b.advance 5)
      else if can_read b 4 ∧ takeBytes b 4 = trueLit then
        some (trueVal, b.advance 4)
      else if can_access_at_index b 0 ∧ byte_at_offset b 0 = 34 then
        parse_string b
      else if can_access_at_index b 0 ∧
              (byte_at_offset b 0 = 45 ∨ (48 ≤ byte_at_offset b 0 ∧ byte_at_offset b 0 ≤ 57)) then
        parse_number b
      else if can_access_at_index b 0 ∧ byte_at_offset b 0 = 91 then
        parse_array f b
      else if can_access_at_index b 0 ∧ byte_at_offset b 0 = 123 then
        parse_object f b
      else none

/-- `parse_array` (src lines 994-1039): depth check and increment, `[`,
empty-array case, then the element loop.  On failure the offset adjustments of
the source only feed the unmodelled error cursor. -/
def parse_array : Nat → ParseBuffer → Option (Value × ParseBuffer)
  | 0, _ => none
  | f + 1, b =>
      if b.depth ≥ STB_JSON_NESTING_LIMIT then none
      else
        let b1 := b.depthInc
        if byte_at_offset b1 0 ≠ 91 then none
        else
          let b2 := buffer_skip_whitespace (b1.advance 1)
          if can_access_at_index b2 0 ∧ byte_at_offset b2 0 = 93 then
            some (arrayVal [], (b2.advance 1).depthDec)
          else if ¬ can_access_at_index b2 0 then none
          else
            match parse_array_items f [] b2.retreat with
            | none => none
            | some (vs, b3) => some (arrayVal vs, b3.depthDec)

/-- The `do`-loop of `parse_array`: consume the `[` or `,`, skip whitespace,
parse an element, skip whitespace; continue on `,`, finish on `]`. -/
def parse_array_items : Nat → List Value → ParseBuffer → Option (List Value × ParseBuffer)
  | 0, _, _ => none
  | f + 1, acc, b =>
      let b1 := buffer_skip_whitespace (b.advance 1)
      match parse_value f b1 with
      | none => none
      | some (v, b2) =>
          let b3 := buffer_skip_whitespace b2
          if can_access_at_index b3 0 ∧ byte_at_offset b3 0 = 44 then
            parse_array_items f (acc ++ [v]) b3
          else if ¬ can_access_at_index b3 0 ∨ byte_at_offset b3 0 ≠ 93 then none
          else some (acc ++ [v], b3.advance 1)

/-- `parse_object` (src lines 1074-1129): depth check and increment, `{`,
empty-object case, then the member loop. -/
def parse_object : Nat → ParseBuffer → Option (Value × ParseBuffer)
  | 0, _ => none
  | f + 1, b =>
      if b.depth ≥ STB_JSON_NESTING_LIMIT then none
      else
        let b1 := b.depthInc
        if ¬ can_access_at_index b1 0 ∨ byte_at_offset b1 0 ≠ 123 then none
        else
          let b2 := buffer_skip_whitespace (b1.advance 1)
          if can_access_at_index b2 0 ∧ byte_at_offset b2 0 = 125 then
            some (objectVal [], (b2.advance 1).depthDec)
          else if ¬ can_access_at_index b2 0 then none
          else
            match parse_object_items f [] b2.retreat with
            | none => none
            | some (vs, b3) => some (objectVal vs, b3.depthDec)

/-- The `do`-loop of `parse_object`: consume the `{` or `,`, skip whitespace,
parse the key string, skip whitespace, move the parsed string into the key
field, require `:`, parse the member value, skip whitespace; continue on `,`,
finish on `}`. -/
def parse_object_items : Nat → List Value → ParseBuffer → Option (List Value × ParseBuffer)
  | 0, _, _ => none
  | f + 1, acc, b =>
      if ¬ can_access_at_index b 1 then none
      else
        let b1 := buffer_skip_whitespace (b.advance 1)
        match parse_string b1 with
        | none => none
        | some (sv, b2) =>
            let b3 := buffer_skip_whitespace b2
            if ¬ can_access_at_index b3 0 ∨ byte_at_offset b3 0 ≠ 58 then none
            else
              let b4 := buffer_skip_whitespace (b3.advance 1)
              match parse_value f b4 with
              | none => none
              | some (v, b5) =>
                  let b6 := buffer_skip_whitespace b5
                  let item := v.withKey sv.valuestring
                  if can_access_at_index b6 0 ∧ byte_at_offset b6 0 = 44 then
                    parse_object_items f (acc ++ [item]) b6
                  else if ¬ can_access_at_index b6 0 ∨ byte_at_offset b6 0 ≠ 125 then none
                  else some (acc ++ [item], b6.advance 1)

end

/-- C `strlen`: bytes before the first NUL. -/
def strlenB (l : Bytes) : Nat := (l.takeWhile (fun c => c ≠ 0)).length

/-- `stb_json_parse_withlengthopts` (src lines 887-921), without the
`return_parse_end` out-parameter and the error cursor.  The fuel handed to
`parse_value` exceeds the number of parser steps possible on a buffer of this
length (every loop iteration and recursion step consumes at least one input
byte before recursing). -/
def stb_json_parse_withlengthopts (value : Bytes) (buffer_length : Nat)
    (require_null_terminated : Bool) : Option Value :=
  if buffer_length = 0 then none
  else
    let b0 : ParseBuffer := ⟨value, buffer_length, 0, 0⟩
    let b1 := buffer_skip_whitespace (skip_utf8_bom b0)
    match parse_value (4 * buffer_length + 8) b1 with
    | none => none
    | some (v, b2) =>
        if require_null_terminated then
          let b3 := buffer_skip_whitespace b2
          if b3.offset ≥ b3.length ∨ byte_at_offset b3 0 ≠ 0 then none else some v
        else some v

/-- `stb_json_parse` (src lines 874-885): NUL-terminated entry point,
`buffer_length = strlen + 1`.  The argument carries the bytes before the
terminating NUL. -/
def stb_json_parse (value : Bytes) : Option Value :=
  stb_json_parse_withlengthopts value (strlenB value + 1) false

mutual

/-- The depth of a tree: nesting of arrays and objects (scalars have depth
0). -/
def treeDepth : Value → Nat
  | .mk k _ _ _ _ _ _ ch =>
      match k with
      | .array => 1 + treeDepthList ch
      | .object => 1 + treeDepthList ch
      | _ => 0
termination_by structural v => v

def treeDepthList : List Value → Nat
  | [] => 0
  | v :: vs => max (treeDepth v) (treeDepthList vs)
termination_by structural l => l

end

/-- The canonical nested-array input: `k` opening brackets followed by `k`
closing brackets. -/
def nestInput (k : Nat) : Bytes := List.replicate k 91 ++ List.replicate k 93

/-- The tree parsed from `nestInput k`: arrays nested `k` deep. -/
def nestedArr : Nat → Value
  | 0 => arrayVal []
  | k + 1 => arrayVal [nestedArr k]

/-- An input whose bracket nesting depth is exactly `k` but which is not valid
JSON: `k` opening brackets, the byte `x`, `k` closing brackets. -/
def nestXInput (k : Nat) : Bytes :=
  List.replicate k 91 ++ [120] ++ List.replicate k 93

/-- The bytes of `"+5"`: a number token with a leading plus sign. -/
def plusFiveInput : Bytes := [43, 53]

/-- Counterexample node for claim C5: double `2^30 - 2^-22`
(`(2^52 - 1) / 2^22`), integer projection `2^30 - 1` (the truncation of the
double, consistent with the parser's saturation rule). -/
def c5a : Value := numberV (Rat.divInt 4503599627370495 4194304) 1073741823

/-- Counterexample node for claim C5: double `2^30`, integer projection
`2^30`. -/
def c5b : Value := numberV (Rat.divInt 1073741824 1) 1073741824


/-- Minifier state: the in-place buffer with a read index (`json`) and a
write index (`into`); writes at `wi` never pass reads at `ri`. -/
structure MinState where
  buf : List Nat
  ri : Nat
  wi : Nat
deriving DecidableEq

/-- `skip_oneline_comment` loop (src line 1683). -/
def ol_loop : Nat → MinState → MinState
  | 0, s => s
  | f + 1, s =>
      let c := s.buf.getD s.ri 0
      if c = 0 then s
      else if c = 10 then { s with ri := s.ri + 1 }
      else ol_loop f { s with ri := s.ri + 1 }

/-- `skip_oneline_comment` (src lines 1681-1684). -/
def skip_oneline_comment (f : Nat) (s : MinState) : MinState :=
  ol_loop f { s with ri := s.ri + 2 }

/-- `skip_multiline_comment` loop (src lines 1688-1693). -/
def ml_loop : Nat → MinState → MinState
  | 0, s => s
  | f + 1, s =>
      let c := s.buf.getD s.ri 0
      if c = 0 then s
      else if c = 42 ∧ s.buf.getD (s.ri + 1) 0 = 47 then { s with ri := s.ri + 2 }
      else ml_loop f { s with ri := s.ri + 1 }

/-- `skip_multiline_comment` (src lines 1686-1694). -/
def skip_multiline_comment (f : Nat) (s : MinState) : MinState :=
  ml_loop f { s with ri := s.ri + 2 }

/-- The `for` loop of `minify_string` (src lines 741-752), including the
faithful extra `(*input)++` on an escaped quote at line 747. -/
def ms_loop : Nat → MinState → MinState
  | 0, s => s
  | f + 1, s =>
      let c := s.buf.getD s.ri 0
      if c = 0 ∨ c = 34 then s
      else
        let s2 : MinState :=
          if c = 92 then
            let s1 : MinState := ⟨s.buf.set s.wi c, s.ri + 1, s.wi + 1⟩
            let d := s1.buf.getD s1.ri 0
            if d ≠ 0 then
              let s1b : MinState := ⟨s1.buf.set s1.wi d, s1.ri, s1.wi⟩
              if d = 34 then { s1b with ri := s1b.ri + 1 } else s1b
            else s1
          else ⟨s.buf.set s.wi c, s.ri, s.wi⟩
        ms_loop f ⟨s2.buf, s2.ri + 1, s2.wi + 1⟩

/-- `minify_string` (src lines 736-759). -/
def minify_string (f : Nat) (s : MinState) : MinState :=
  let c := s.buf.getD s.ri 0
  let s1 : MinState := ⟨s.buf.set s.wi c, s.ri + 1, s.wi + 1⟩
  let s2 := ms_loop f s1
  let c2 := s2.buf.getD s2.ri 0
  if c2 = 34 then ⟨s2.buf.set s2.wi c2, s2.ri + 1, s2.wi + 1⟩ else s2

/-- The `while (*json)` loop of `stb_json_minify` (src lines 1704-1715). -/
def minify_loop : Nat → MinState → MinState
  | 0, s => s
  | f + 1, s =>
      let c := s.buf.getD s.ri 0
      if c = 0 then s
      else if c = 32 ∨ c = 9 ∨ c = 13 ∨ c = 10 then
        minify_loop f { s with ri := s.ri + 1 }
      else if c = 47 then
        if s.buf.getD (s.ri + 1) 0 = 47 then
          minify_loop f (skip_oneline_comment f s)
        else if s.buf.getD (s.ri + 1) 0 = 42 then
          minify_loop f (skip_multiline_comment f s)
        else minify_loop f { s with ri := s.ri + 1 }
      else if c = 34 then minify_loop f (minify_string f s)
      else minify_loop f ⟨s.buf.set s.wi c, s.ri + 1, s.wi + 1⟩

/-- `stb_json_minify` (src lines 1700-1717): the argument carries the
bytes before the terminating NUL; the result is the minified C string
(the bytes before the NUL written at the final write index). -/
def stb_json_minify (json : List Nat) : List Nat :=
  let buf := json ++ [0]
  let s := minify_loop (buf.length + 2) ⟨buf, 0, 0⟩
  (s.buf.set s.wi 0).takeWhile (fun c => c ≠ 0)


/-- `STB_JSON_CIRCULAR_LIMIT` (src line 96). -/
def STB_JSON_CIRCULAR_LIMIT : Nat := 10000

def Value.setChildren : Value → List Value → Value
  | .mk k r c vs vi vd s _, ch => .mk k r c vs vi vd s ch

/-- The walk of `get_object_item` (src lines 1208-1221): the loop stops at
the first keyless child and then returns NULL; otherwise it returns the
first child whose key matches `name` under the chosen comparator. -/
def get_object_item_loop (name : Bytes) (case_sensitive : Bool) :
    List Value → Option Value
  | [] => none
  | c :: rest =>
      match c.key with
      | none => none
      | some k =>
          if (if case_sensitive then strcmpB name k ≠ 0
              else case_insensitive_strcmp name k ≠ 0) then
            get_object_item_loop name case_sensitive rest
          else some c

/-- `get_object_item` (src lines 1208-1221) on a non-NULL object. -/
def get_object_item (object : Value) (name : Bytes) (case_sensitive : Bool) :
    Option Value :=
  get_object_item_loop name case_sensitive object.children

/-- The combination of `get_object_item` and `stb_json_detachitemviapointer`
(src lines 1377-1387, 1398-1406) on the child list: remove the first child
found by the `get_object_item` walk, or leave the list unchanged when the
walk returns NULL. -/
def detach_loop (name : Bytes) (case_sensitive : Bool) :
    List Value → Option (Value × List Value)
  | [] => none
  | c :: rest =>
      match c.key with
      | none => none
      | some k =>
          if (if case_sensitive then strcmpB name k ≠ 0
              else case_insensitive_strcmp name k ≠ 0) then
            match detach_loop name case_sensitive rest with
            | none => none
            | some (it, rest2) => some (it, c :: rest2)
          else some (c, rest)

/-- `stb_json_detachitemfromobject` / `...casesensitive` (src lines
1398-1406): the detached item (NULL when absent) and the updated object. -/
def stb_json_detachitemfromobject (object : Value) (name : Bytes)
    (case_sensitive : Bool) : Option Value × Value :=
  match detach_loop name case_sensitive object.children with
  | none => (none, object)
  | some (it, ch2) => (some it, object.setChildren ch2)

/-- `stb_json_deleteitemfromobject` / `...casesensitive` (src lines
1408-1414): detach the first matching child and free it. -/
def stb_json_deleteitemfromobject (object : Value) (name : Bytes)
    (case_sensitive : Bool) : Value :=
  (stb_json_detachitemfromobject object name case_sensitive).2

/-- `add_item_to_object` with `constant_key = false` followed by
`add_item_to_array` (src lines 1252-1266, 1276-1300) on a well-formed child
list (the head's `prev` points at the tail, so the append branch runs):
the item gets a fresh copy of the key, its const-flag is cleared, and it is
appended at the end of the child list. -/
def stb_json_additemtoobject (object : Value) (s : Bytes) (item : Value) :
    Value :=
  match item with
  | .mk k r _ vs vi vd _ ch =>
      object.setChildren (object.children ++ [Value.mk k r false vs vi vd (some s) ch])

mutual

/-- `stb_json_duplicate_rec` (src lines 1632-1675): all scalar fields are
copied; the key is re-duplicated only when present and not const (a
const-keyed node duplicates to a NULL key, the flag itself is copied);
with `recurse` the children are duplicated left to right, failing once
`depth` reaches `STB_JSON_CIRCULAR_LIMIT`. -/
def stb_json_duplicate_rec : Value → Nat → Bool → Option Value
  | .mk k r c vs vi vd s ch, depth, recurse =>
      let s2 := if c then none else s
      if recurse = false then some (.mk k r c vs vi vd s2 [])
      else if STB_JSON_CIRCULAR_LIMIT ≤ depth then none
      else
        match dupChildren ch (depth + 1) with
        | none => none
        | some ch2 => some (.mk k r c vs vi vd s2 ch2)
termination_by structural x _ _ => x

/-- The child-duplication loop of `stb_json_duplicate_rec` (src lines
1655-1668). -/
def dupChildren : List Value → Nat → Option (List Value)
  | [], _ => some []
  | x :: xs, depth =>
      match stb_json_duplicate_rec x depth true with
      | none => none
      | some y =>
          match dupChildren xs depth with
          | none => none
          | some ys => some (y :: ys)
termination_by structural l _ => l

end

/-- `stb_json_duplicate` (src lines 1677-1679). -/
def stb_json_duplicate (item : Value) (recurse : Bool) : Option Value :=
  stb_json_duplicate_rec item 0 recurse

mutual

/-- `merge_patch` (src lines 2322-2349): a non-object patch deletes the
target and returns a deep duplicate of the patch; otherwise the target is
coerced to an object (a fresh empty one when NULL or not an object) and the
patch children are applied in order.  The target is `Option Value` because
the detach of an absent key passes NULL to the recursive call. -/
def merge_patch : Option Value → Value → Bool → Option Value
  | target, .mk k r c vs vi vd s ch, case_sensitive =>
      if k ≠ .object then
        stb_json_duplicate_rec (.mk k r c vs vi vd s ch) 0 true
      else
        let t0 : Value :=
          match target with
          | some t => if t.kind = .object then t else objectVal []
          | none => objectVal []
        merge_children t0 ch case_sensitive
termination_by structural _ p _ => p

/-- The `while (patch_child)` loop of `merge_patch` (src lines 2332-2346).
A NULL-keyed patch child makes every object helper a no-op (they all pass
the NULL key to `get_object_item` or `add_item_to_object`, which bail
out), except that a failing recursive merge still aborts the whole call. -/
def merge_children : Value → List Value → Bool → Option Value
  | target, [], _ => some target
  | target, pc :: rest, case_sensitive =>
      if pc.kind = .jnull then
        let target2 :=
          match pc.key with
          | none => target
          | some name => stb_json_deleteitemfromobject target name case_sensitive
        merge_children target2 rest case_sensitive
      else
        match pc.key with
        | none =>
            match merge_patch none pc case_sensitive with
            | none => none
            | some _ => merge_children target rest case_sensitive
        | some name =>
            let dt := stb_json_detachitemfromobject target name case_sensitive
            match merge_patch dt.1 pc case_sensitive with
            | none => none
            | some replacement =>
                merge_children (stb_json_additemtoobject dt.2 name replacement)
                  rest case_sensitive
termination_by structural _ l _ => l

end

/-- `stb_json_utils_mergepatch` (src lines 2351-2353). -/
def stb_json_utils_mergepatch (target : Option Value) (patch : Value) :
    Option Value :=
  merge_patch target patch false

def c8base : Value :=
  objectVal [(numberV (Rat.divInt 1 1) 1).withKey (some [97]),
             (numberV (Rat.divInt 2 1) 2).withKey (some [98])]

def c8patch : Value :=
  objectVal [nullVal.withKey (some [97]),
             (numberV (Rat.divInt 3 1) 3).withKey (some [99])]

def c8result : Value :=
  objectVal [(numberV (Rat.divInt 2 1) 2).withKey (some [98]),
             (numberV (Rat.divInt 3 1) 3).withKey (some [99])]

def c8dup : Value :=
  objectVal [(numberV (Rat.divInt 1 1) 1).withKey (some [97]),
             (numberV (Rat.divInt 2 1) 2).withKey (some [97])]

def c8nullPatch : Value := objectVal [nullVal.withKey (some [97])]

def c8dupResult : Value :=
  objectVal [(numberV (Rat.divInt 2 1) 2).withKey (some [97])]


/-- A node of the pointer arena: the three pointer fields of the C struct
that the child-list mutations manipulate (`next`, `prev`, `child`);
`Option Nat` is a possibly-NULL index into the arena. -/
structure CNode where
  next : Option Nat
  prev : Option Nat
  child : Option Nat
deriving DecidableEq

/-- The pointer arena: every index holds a node. -/
def Heap : Type := Nat → CNode

/-- `node->next = v`. -/
def setNext (h : Heap) (j : Nat) (v : Option Nat) : Heap :=
  fun k => if k = j then { h k with next := v } else h k

/-- `node->prev = v`. -/
def setPrev (h : Heap) (j : Nat) (v : Option Nat) : Heap :=
  fun k => if k = j then { h k with prev := v } else h k

/-- `node->child = v`. -/
def setChild (h : Heap) (j : Nat) (v : Option Nat) : Heap :=
  fun k => if k = j then { h k with child := v } else h k

/-- `add_item_to_array` (src lines 1252-1266) on the pointer heap: `a` is
the array node, `i` the appended item.  The final `array->child->prev =
item` re-reads `array->child`, which no earlier update can have changed
because the updates touch only `next`/`prev` fields. -/
def add_item_to_array (h : Heap) (a i : Nat) : Heap :=
  if i = a then h
  else
    match (h a).child with
    | none => setPrev (setChild h a (some i)) i (some i)
    | some c =>
        match (h c).prev with
        | none => h
        | some t => setPrev (setPrev (setNext h t (some i)) i (some t)) c (some i)

/-- The `while (child && item > 0)` walk of `get_array_item` (src lines
1181-1185). -/
def walk (h : Heap) : Option Nat → Nat → Option Nat
  | c, 0 => c
  | none, _ + 1 => none
  | some c, k + 1 => walk h (h c).next k

/-- `get_array_item` (src lines 1181-1185) on a non-NULL array node, at
the heap level (`get_array_item` is the tree-level embedding of the same
function). -/
def get_array_item_heap (h : Heap) (a : Nat) (item : Nat) : Option Nat :=
  walk h (h a).child item

/-- `stb_json_insertiteminarray` (src lines 1416-1427): each line reads the
then-current state of memory, so `newitem->prev = after_inserted->prev` is
read after `newitem->next` was written, and the `newitem->prev->next`
write of line 1425 re-reads `newitem->prev`.  A NULL `newitem->prev` there
would be a NULL dereference in C; the model leaves the heap unchanged.
`insert_before` is the body of the `after_inserted` branch (src lines
1421-1426), and `setNextO` is the write through the possibly-NULL
`newitem->prev` (a NULL dereference in C, modelled as a no-op). -/
def setNextO (h : Heap) (j : Option Nat) (v : Option Nat) : Heap :=
  match j with
  | none => h
  | some q => setNext h q v

def insert_before (h : Heap) (a after i : Nat) : Heap :=
  let h1 := setNext h i (some after)
  let h2 := setPrev h1 i ((h1 after).prev)
  let h3 := setPrev h2 after (some i)
  if (h3 a).child = some after then setChild h3 a (some i)
  else setNextO h3 ((h3 i).prev) (some i)

def stb_json_insertiteminarray (h : Heap) (a : Nat) (which : Int) (i : Nat) :
    Heap :=
  if which < 0 then h
  else
    match get_array_item_heap h a which.toNat with
    | none => add_item_to_array h a i
    | some after => insert_before h a after i

/-- `stb_json_detachitemviapointer` (src lines 1377-1387) on the pointer
heap: `p` is the parent, `i` the detached item.  Every condition and every
right-hand side reads the then-current state, in source order; the
`parent->child->prev` write of line 1383 with a NULL `parent->child`
would be a NULL dereference in C; the model (`setPrevO`, the dual of
`setNextO`) leaves the heap unchanged. -/
def setPrevO (h : Heap) (j : Option Nat) (v : Option Nat) : Heap :=
  match j with
  | none => h
  | some n => setPrev h n v

def stb_json_detachitemviapointer (h : Heap) (p i : Nat) : Heap :=
  if (h p).child ≠ some i ∧ (h i).prev = none then h
  else
    let h1 :=
      if (h p).child ≠ some i then setNextO h ((h i).prev) ((h i).next) else h
    let h2 := setPrevO h1 ((h1 i).next) ((h1 i).prev)
    let h3 :=
      if (h2 p).child = some i then setChild h2 p ((h2 i).next)
      else if (h2 i).next = none then setPrevO h2 ((h2 p).child) ((h2 i).prev)
      else h2
    setNext (setPrev h3 i none) i none

/-- Following `next` from node `x` enumerates exactly `l` and the last
node's `next` is NULL. -/
def chainNexts (h : Heap) : Nat → List Nat → Bool
  | x, [] => (h x).next = none
  | x, y :: rest => (h x).next = some y && chainNexts h y rest

/-- Every node of `l` has its `prev` pointing at its predecessor (`a`
before the first). -/
def chainPrevs (h : Heap) : Nat → List Nat → Bool
  | _, [] => true
  | a, b :: rest => (h b).prev = some a && chainPrevs h b rest

/-- The well-formedness invariant of a child list (spec section 3): `l` is
the child chain of `p`; the tail's `next` is NULL (inside `chainNexts`),
the head's `prev` points at the tail (`rest.getLastD x`), and every other
`prev` points at the predecessor. -/
def chainOk (h : Heap) (p : Nat) : List Nat → Bool
  | [] => (h p).child = none
  | x :: rest =>
      (h p).child = some x && chainNexts h x rest &&
      (h x).prev = some (rest.getLastD x) && chainPrevs h x rest

/-- A concrete all-NULL arena for exercising the child-list operations. -/
def c9heap : Heap := fun _ => ⟨none, none, none⟩

/-- `c9heap` after appending node 1 to node 0's (empty) child list. -/
def c9heap2 : Heap := add_item_to_array c9heap 0 1


/-- The merge loop of `sort_list` (src lines 1989-2011): a strictly smaller
first key goes first, so ties pick the second list's element.  The fuel is
always called with at least the summed length, and an exhausted fuel
appends the remainders exactly as the loop's tail handling does. -/
def merge_key_lists : Nat → Bool → List Value → List Value → List Value
  | 0, _, l1, l2 => l1 ++ l2
  | _ + 1, _, [], l2 => l2
  | _ + 1, _, l1@(_ :: _), [] => l1
  | f + 1, cs, a :: l1, b :: l2 =>
      if compare_strings a.key b.key cs < 0 then
        a :: merge_key_lists f cs l1 (b :: l2)
      else b :: merge_key_lists f cs (a :: l1) l2

/-- `sort_list` (src lines 1970-2013): merge sort on the child list keyed by
`compare_strings`; the slow/fast pointer split takes the first half of
`⌊n/2⌋` nodes. -/
def sort_list : Nat → Bool → List Value → List Value
  | 0, _, l => l
  | f + 1, cs, l =>
      if l.length ≤ 1 then l
      else
        merge_key_lists (l.length + 1) cs
          (sort_list f cs (l.take (l.length / 2)))
          (sort_list f cs (l.drop (l.length / 2)))

mutual

/-- `compare_json` (src lines 2019-2051), the comparator used by the patch
TEST operation.  Unlike `stb_json_compare` it checks `valueint` on numbers
(line 2023), and on objects it MUTATES both operands by `sort_object`
(lines 2037-2038) before walking the members; the returned pair carries the
mutated operands.  On early failure only the already-visited prefix has
been mutated. -/
def compare_json : Nat → Value → Value → Bool → (Bool × Value × Value)
  | 0, a, b, _ => (false, a, b)
  | f + 1, .mk ka ra fa vsa ia da sa cha, .mk kb rb fb vsb ib db sb chb, cs =>
      if ka ≠ kb then
        (false, .mk ka ra fa vsa ia da sa cha, .mk kb rb fb vsb ib db sb chb)
      else
        match ka with
        | .number =>
            ((ia == ib) && compare_double da db,
              .mk ka ra fa vsa ia da sa cha, .mk kb rb fb vsb ib db sb chb)
        | .jstring =>
            ((match vsa, vsb with
              | some x, some y => strcmpB x y == 0
              | _, _ => false),
              .mk ka ra fa vsa ia da sa cha, .mk kb rb fb vsb ib db sb chb)
        | .raw =>
            ((match vsa, vsb with
              | some x, some y => strcmpB x y == 0
              | _, _ => false),
              .mk ka ra fa vsa ia da sa cha, .mk kb rb fb vsb ib db sb chb)
        | .array =>
            match compare_children f cha chb cs with
            | (ok, ca2, cb2) =>
                (ok, .mk ka ra fa vsa ia da sa ca2, .mk kb rb fb vsb ib db sb cb2)
        | .object =>
            match compare_object_children f (sort_list f cs cha)
                (sort_list f cs chb) cs with
            | (ok, ca2, cb2) =>
                (ok, .mk ka ra fa vsa ia da sa ca2, .mk kb rb fb vsb ib db sb cb2)
        | _ =>
            (true, .mk ka ra fa vsa ia da sa cha, .mk kb rb fb vsb ib db sb chb)
termination_by structural f => f

/-- The array-member walk of `compare_json` (src lines 2026-2035); a length
mismatch fails, and the prefix walked so far is returned mutated. -/
def compare_children : Nat → List Value → List Value → Bool → (Bool × List Value × List Value)
  | 0, l1, l2, _ => (false, l1, l2)
  | _ + 1, [], [], _ => (true, [], [])
  | _ + 1, [], b :: bs, _ => (false, [], b :: bs)
  | _ + 1, a :: as2, [], _ => (false, a :: as2, [])
  | f + 1, a :: as2, b :: bs, cs =>
      match compare_json f a b cs with
      | (ok, a2, b2) =>
          if ok then
            match compare_children f as2 bs cs with
            | (ok2, as3, bs3) => (ok2, a2 :: as3, b2 :: bs3)
          else (false, a2 :: as2, b2 :: bs)
termination_by structural f => f

/-- The object-member walk of `compare_json` (src lines 2039-2047): keys are
compared with `compare_strings` before the values. -/
def compare_object_children : Nat → List Value → List Value → Bool → (Bool × List Value × List Value)
  | 0, l1, l2, _ => (false, l1, l2)
  | _ + 1, [], [], _ => (true, [], [])
  | _ + 1, [], b :: bs, _ => (false, [], b :: bs)
  | _ + 1, a :: as2, [], _ => (false, a :: as2, [])
  | f + 1, a :: as2, b :: bs, cs =>
      if compare_strings a.key b.key cs ≠ 0 then (false, a :: as2, b :: bs)
      else
        match compare_json f a b cs with
        | (ok, a2, b2) =>
            if ok then
              match compare_object_children f as2 bs cs with
              | (ok2, as3, bs3) => (ok2, a2 :: as3, b2 :: bs3)
            else (false, a2 :: as2, b2 :: bs)
termination_by structural f => f

end

/-- `compare_pointers` (src lines 1781-1792): does the object key `name`
match the next pointer segment (up to `/` or the end), decoding the `~0`
and `~1` escapes? -/
def compare_pointers : Bytes → Bytes → Bool → Bool
  | [], ptr, _ =>
      match ptr with
      | [] => true
      | c :: _ => c = 47
  | _ :: _, [], _ => false
  | n :: ns, c :: rest, cs =>
      if c = 47 then false
      else if c = 126 then
        if (rest.headD 0 ≠ 48 ∨ n ≠ 126) ∧ (rest.headD 0 ≠ 49 ∨ n ≠ 47) then
          false
        else compare_pointers ns (rest.drop 1) cs
      else if (cs ∧ n ≠ c) ∨ (¬cs ∧ tolowerB n ≠ tolowerB c) then false
      else compare_pointers ns rest cs

/-- The digit loop of `decode_array_index_from_pointer` (src lines
1874-1876): the parsed value (a `size_t`, hence mod 2^64) and the count of
digits consumed. -/
def digitsLoop : Bytes → Nat → Nat × Nat
  | [], acc => (acc, 0)
  | c :: rest, acc =>
      if 48 ≤ c ∧ c ≤ 57 then
        match digitsLoop rest ((10 * acc + (c - 48)) % (2 ^ 64)) with
        | (v, k) => (v, k + 1)
      else (acc, 0)

/-- `decode_array_index_from_pointer` (src lines 1870-1880): a decimal
segment with no leading zeros, ending at `/` or at the end. -/
def decode_array_index_from_pointer (ptr : Bytes) : Option Nat :=
  if ptr.headD 0 = 48 ∧ ptr.getD 1 0 ≠ 0 ∧ ptr.getD 1 0 ≠ 47 then none
  else
    match digitsLoop ptr 0 with
    | (v, pos) =>
        if (ptr.getD pos 0 ≠ 0 ∧ ptr.getD pos 0 ≠ 47) ∨ pos = 0 then none
        else some v

mutual

/-- The TEST path of `apply_patch` (src line 2102): the traversal of
`get_item_from_pointer` (src lines 1882-1902) fused with the in-place
mutation write-back of `compare_json`.  In C `compare_json` mutates the
located subtree through the pointer returned by the traversal; here the
walk rebuilds the document along the same path around the mutated
subtree.  A failed index decode, a non-container element, or a NULL
element makes `get_item_from_pointer` return NULL and
`compare_json(NULL, value)` is false with nothing mutated. -/
def test_at : Nat → Value → Bytes → Value → Bool → (Bool × Value × Value)
  | 0, el, _, v, _ => (false, el, v)
  | f + 1, el, [], v, cs => compare_json f el v cs
  | f + 1, el, c :: rest, v, cs =>
      if c = 47 then
        if el.kind = .array then
          match decode_array_index_from_pointer rest with
          | none => (false, el, v)
          | some idx =>
              match test_at_list f el.children idx
                  (rest.dropWhile (fun c2 => c2 ≠ 47)) v cs with
              | (ok, ch2, v2) => (ok, el.setChildren ch2, v2)
        else if el.kind = .object then
          match test_at_object f el.children rest
              (rest.dropWhile (fun c2 => c2 ≠ 47)) v cs with
          | (ok, ch2, v2) => (ok, el.setChildren ch2, v2)
        else (false, el, v)
      else compare_json f el v cs
termination_by structural f => f

/-- The `get_array_item` step of the traversal (src line 1890), with
write-back: walk to index `idx` and test there. -/
def test_at_list : Nat → List Value → Nat → Bytes → Value → Bool → (Bool × List Value × Value)
  | 0, ch, _, _, v, _ => (false, ch, v)
  | _ + 1, [], _, _, v, _ => (false, [], v)
  | f + 1, c :: rest, 0, ptr, v, cs =>
      match test_at f c ptr v cs with
      | (ok, c2, v2) => (ok, c2 :: rest, v2)
  | f + 1, c :: rest, k + 1, ptr, v, cs =>
      match test_at_list f rest k ptr v cs with
      | (ok, rest2, v2) => (ok, c :: rest2, v2)
termination_by structural f => f

/-- The object-member search of the traversal (src lines 1892-1895), with
write-back: the first child whose key matches the segment under
`compare_pointers` is tested (a keyless child never matches, as
`compare_pointers(NULL, ..)` is false). -/
def test_at_object : Nat → List Value → Bytes → Bytes → Value → Bool → (Bool × List Value × Value)
  | 0, ch, _, _, v, _ => (false, ch, v)
  | _ + 1, [], _, _, v, _ => (false, [], v)
  | f + 1, c :: rest, seg, nptr, v, cs =>
      match c.key with
      | some k =>
          if compare_pointers k seg cs then
            match test_at f c nptr v cs with
            | (ok, c2, v2) => (ok, c2 :: rest, v2)
          else
            match test_at_object f rest seg nptr v cs with
            | (ok, rest2, v2) => (ok, c :: rest2, v2)
      | none =>
          match test_at_object f rest seg nptr v cs with
          | (ok, rest2, v2) => (ok, c :: rest2, v2)
termination_by structural f => f

end

/-- `enum patch_operation` (src line 2072). -/
inductive PatchOp where
  | INVALID
  | ADD
  | REMOVE
  | REPLACE
  | MOVE
  | COPY
  | TEST
deriving DecidableEq

/-- `decode_patch_operation` (src lines 2074-2085); the `get_object_item`
of src line 2066 dispatches to the walk of src lines 1208-1221.  A present
string node with a NULL `valuestring` would crash `strcmp` in C; the model
returns INVALID. -/
def decode_patch_operation (patch : Value) (cs : Bool) : PatchOp :=
  match get_object_item patch [111, 112] cs with
  | none => .INVALID
  | some operation =>
      if operation.kind ≠ .jstring then .INVALID
      else
        match operation.valuestring with
        | none => .INVALID
        | some op =>
            if strcmpB op [97, 100, 100] == 0 then .ADD
            else if strcmpB op [114, 101, 109, 111, 118, 101] == 0 then .REMOVE
            else if strcmpB op [114, 101, 112, 108, 97, 99, 101] == 0 then .REPLACE
            else if strcmpB op [109, 111, 118, 101] == 0 then .MOVE
            else if strcmpB op [99, 111, 112, 121] == 0 then .COPY
            else if strcmpB op [116, 101, 115, 116] == 0 then .TEST
            else .INVALID

/-- `apply_patch` (src lines 2095-2177) restricted to the code it runs for
a TEST operation (lines 2096-2104), returning the status and the possibly
mutated document; the mutation of the patch's "value" member by
`compare_json` is dropped, and the other opcodes (lines 2106-2176) are
outside this model (`none`).  A missing "value" member makes
`compare_json(.., NULL)` false with nothing mutated (status 1). -/
def apply_patch_test (f : Nat) (object patch : Value) (cs : Bool) :
    Option (Int × Value) :=
  match get_object_item patch [112, 97, 116, 104] cs with
  | none => some (2, object)
  | some path =>
      if path.kind ≠ .jstring then some (2, object)
      else
        match decode_patch_operation patch cs with
        | .INVALID => some (3, object)
        | .TEST =>
            match path.valuestring with
            | none => some (1, object)
            | some ptr =>
                match get_object_item patch [118, 97, 108, 117, 101] cs with
                | none => some (1, object)
                | some val =>
                    match test_at f object ptr val cs with
                    | (ok, object2, _) =>
                        some (if ok then 0 else 1, object2)
        | _ => none

mutual

/-- Recursive equality up to the order of object members: nodes agree on
every scalar field, array children correspond pointwise, and object
children correspond pointwise after a permutation. -/
inductive PermEq : Value → Value → Prop where
  | other : ∀ (k : JKind) (r c : Bool) (vs : Option Bytes) (i : Int) (d : ℚ)
      (s : Option Bytes) (ch1 ch2 : List Value), k ≠ .object → PtwEq ch1 ch2 →
      PermEq (.mk k r c vs i d s ch1) (.mk k r c vs i d s ch2)
  | object : ∀ (r c : Bool) (vs : Option Bytes) (i : Int) (d : ℚ)
      (s : Option Bytes) (ch1 mid ch2 : List Value), PtwEq ch1 mid →
      mid.Perm ch2 →
      PermEq (.mk .object r c vs i d s ch1) (.mk .object r c vs i d s ch2)

/-- Pointwise `PermEq` on child lists. -/
inductive PtwEq : List Value → List Value → Prop where
  | nil : PtwEq [] []
  | cons : ∀ (a b : Value) (l1 l2 : List Value), PermEq a b → PtwEq l1 l2 →
      PtwEq (a :: l1) (b :: l2)

end

def c4str (s : Bytes) : Value := .mk .jstring false false (some s) 0 0 none []

/-- The claim C4 example document `{"b":1,"a":2}`, members in that order. -/
def c4doc : Value :=
  objectVal [(numberV (Rat.divInt 1 1) 1).withKey (some [98]),
             (numberV (Rat.divInt 2 1) 2).withKey (some [97])]

/-- `c4doc` with its members reordered by `sort_object` ("a" before "b"). -/
def c4docS : Value :=
  objectVal [(numberV (Rat.divInt 2 1) 2).withKey (some [97]),
             (numberV (Rat.divInt 1 1) 1).withKey (some [98])]

/-- The patch `{"op":"test","path":"","value":{"b":1,"a":2}}`. -/
def c4patch : Value :=
  objectVal [(c4str [116, 101, 115, 116]).withKey (some [111, 112]),
             (c4str []).withKey (some [112, 97, 116, 104]),
             c4doc.withKey (some [118, 97, 108, 117, 101])]

/-- The patch `{"op":"test","path":"","value":{"b":1,"a":3}}` (mismatch). -/
def c4patchBad : Value :=
  objectVal [(c4str [116, 101, 115, 116]).withKey (some [111, 112]),
             (c4str []).withKey (some [112, 97, 116, 104]),
             (objectVal [(numberV (Rat.divInt 1 1) 1).withKey (some [98]),
               (numberV (Rat.divInt 3 1) 3).withKey (some [97])]).withKey
               (some [118, 97, 108, 117, 101])]

end StbJson

namespace StbJson

/-! ## Theorems -/

/-! ### Parser helper lemmas -/

theorem byte_at_offset_eq (b : ParseBuffer) (i : Nat) :
    byte_at_offset b i = (b.content.drop b.offset).getD i 0 := by
  simp [byte_at_offset, List.getD_eq_getElem?_getD, List.getElem?_drop]

theorem drop_succ_of_drop {cs : List Nat} {p : Nat} {c : Nat} {tl : List Nat}
    (h : cs.drop p = c :: tl) : cs.drop (p + 1) = tl :=
  calc cs.drop (p + 1) = (cs.drop p).drop 1 := (List.drop_drop 1 p cs).symm
    _ = (c :: tl).drop 1 := by rw [h]
    _ = tl := rfl

theorem skip_ws_loop_fields (f : Nat) (b : ParseBuffer) :
    (skip_ws_loop f b).content = b.content ∧ (skip_ws_loop f b).length = b.length ∧
    (skip_ws_loop f b).depth = b.depth := by
  induction f generalizing b with
  | zero => exact ⟨rfl, rfl, rfl⟩
  | succ f ih =>
      rw [skip_ws_loop]
      split
      · exact ih (b.advance 1)
      · exact ⟨rfl, rfl, rfl⟩

theorem buffer_skip_whitespace_fields (b : ParseBuffer) :
    (buffer_skip_whitespace b).content = b.content ∧
    (buffer_skip_whitespace b).length = b.length ∧
    (buffer_skip_whitespace b).depth = b.depth := by
  unfold buffer_skip_whitespace clamp_offset
  obtain ⟨h1, h2, h3⟩ := skip_ws_loop_fields (b.length - b.offset + 1) b
  split
  · exact ⟨h1, h2, h3⟩
  · exact ⟨h1, h2, h3⟩

/-- When the current byte is readable and not whitespace, skipping whitespace
is the identity. -/
theorem skip_ws_noop (b : ParseBuffer) (h32 : 32 < byte_at_offset b 0)
    (hacc : b.offset < b.length) : buffer_skip_whitespace b = b := by
  unfold buffer_skip_whitespace
  rw [skip_ws_loop]
  rw [if_neg (by omega : ¬ (can_access_at_index b 0 = true ∧ byte_at_offset b 0 ≤ 32))]
  unfold clamp_offset
  rw [if_neg (by omega : ¬ b.offset = b.length)]

/-- Dispatch of `parse_value` on a `[`: only the array branch fires. -/
theorem parse_value_lbracket (f : Nat) (b : ParseBuffer) (tl : List Nat)
    (hdrop : b.content.drop b.offset = 91 :: tl) (hacc : b.offset < b.length) :
    parse_value (f + 1) b = parse_array f b := by
  have hb : byte_at_offset b 0 = 91 := by
    rw [byte_at_offset_eq, hdrop]; rfl
  have ht4 : takeBytes b 4 = 91 :: tl.take 3 := by
    simp [takeBytes, hdrop]
  have ht5 : takeBytes b 5 = 91 :: tl.take 4 := by
    simp [takeBytes, hdrop]
  have hca : can_access_at_index b 0 = true := by
    simp [can_access_at_index]; omega
  rw [parse_value]
  rw [if_neg (by simp [ht4, nullLit])]
  rw [if_neg (by simp [ht5, falseLit])]
  rw [if_neg (by simp [ht4, trueLit])]
  rw [if_neg (by simp [hb])]
  rw [if_neg (by simp [hb])]
  rw [if_pos ⟨hca, hb⟩]

/-- Dispatch of `parse_value` on a byte that matches no value start: the parse
fails.  This covers in particular `+` (claim C6) and the invalid byte `x` used
in the C3 counterexample. -/
theorem parse_value_none_of_head (f : Nat) (b : ParseBuffer) (c : Nat) (tl : List Nat)
    (hdrop : b.content.drop b.offset = c :: tl)
    (h1 : c ≠ 110) (h2 : c ≠ 102) (h3 : c ≠ 116) (h4 : c ≠ 34) (h5 : c ≠ 45)
    (h6 : ¬ (48 ≤ c ∧ c ≤ 57)) (h7 : c ≠ 91) (h8 : c ≠ 123) :
    parse_value f b = none := by
  cases f with
  | zero => rfl
  | succ f =>
      have hb : byte_at_offset b 0 = c := by
        rw [byte_at_offset_eq, hdrop]; rfl
      have ht4 : takeBytes b 4 = c :: tl.take 3 := by
        simp [takeBytes, hdrop]
      have ht5 : takeBytes b 5 = c :: tl.take 4 := by
        simp [takeBytes, hdrop]
      rw [parse_value]
      rw [if_neg (by simp [ht4, nullLit, h1])]
      rw [if_neg (by simp [ht5, falseLit, h2])]
      rw [if_neg (by simp [ht4, trueLit, h3])]
      rw [if_neg (by simp [hb, h4])]
      rw [if_neg (by simp [hb, h5]; omega)]
      rw [if_neg (by simp [hb, h7])]
      rw [if_neg (by simp [hb, h8])]

theorem drop_after_nest (j p : Nat) (cs tail : List Nat)
    (h : cs.drop p = List.replicate j 91 ++ List.replicate j 93 ++ tail) :
    cs.drop (p + 2 * j) = tail := by
  have hlen : (List.replicate j 91 ++ List.replicate j 93).length = 2 * j := by
    simp; omega
  calc cs.drop (p + 2 * j) = (cs.drop p).drop (2 * j) := (List.drop_drop (2 * j) p cs).symm
    _ = ((List.replicate j 91 ++ List.replicate j 93) ++ tail).drop (2 * j) := by
        rw [h, List.append_assoc]
    _ = tail := by rw [← hlen, List.drop_left]

/-- C5 (counterexample): the stand-alone comparator reports the two number
nodes `c5a` and `c5b` equal although their integer projections differ (both
integer projections are also consistent with the saturation rule applied to
their doubles), refuting the claim that equality requires the integer
projections to agree. -/
theorem claim_C5_counterexample :
    stb_json_compare (some c5a) (some c5b) true = true ∧ c5a.valueint ≠ c5b.valueint := by
  constructor
  · decide
  · decide

/-- C5 (amended): `stb_json_compare` on two number nodes returns exactly
`compare_double` of their doubles; the integer projections are not consulted
(that conjunct exists only in the patch engine's `compare_json`). -/
theorem claim_C5 (f1 g1 f2 g2 : Bool) (vs1 vs2 ks1 ks2 : Option Bytes)
    (i1 i2 : Int) (d1 d2 : ℚ) (ch1 ch2 : List Value) (case_sensitive : Bool) :
    stb_json_compare (some (.mk .number f1 g1 vs1 i1 d1 ks1 ch1))
        (some (.mk .number f2 g2 vs2 i2 d2 ks2 ch2)) case_sensitive
      = compare_double d1 d2 := by
  simp [stb_json_compare, stb_json_compare_core]

/-- C10: the public accessors are total and NULL-safe: NULL or non-number
arguments give NaN from the number/double accessors and 0 from the integer
accessor; every `stb_json_is*` predicate is false on NULL;
`stb_json_getarraysize` is 0 on NULL; `stb_json_getarrayitem` is NULL for
every negative index. -/
theorem claim_C10 :
    (∀ item : Option Value, ¬ stb_json_isnumber item = true →
        stb_json_getnumbervalue item = .nan ∧
        stb_json_getnumberdouble item = .nan ∧
        stb_json_getnumberint item = 0) ∧
    (stb_json_isinvalid none = false ∧ stb_json_isfalse none = false ∧
     stb_json_istrue none = false ∧ stb_json_isbool none = false ∧
     stb_json_isnull none = false ∧ stb_json_isnumber none = false ∧
     stb_json_isstring none = false ∧ stb_json_isarray none = false ∧
     stb_json_isobject none = false ∧ stb_json_israw none = false) ∧
    (stb_json_getarraysize none = 0) ∧
    (∀ (array : Option Value) (index : Int), index < 0 →
        stb_json_getarrayitem array index = none) := by
  refine ⟨?_, by decide, rfl, ?_⟩
  · intro item h
    refine ⟨?_, ?_, ?_⟩ <;> simp [stb_json_getnumbervalue, stb_json_getnumberdouble,
      stb_json_getnumberint, h]
  · intro array index h
    simp [stb_json_getarrayitem, h]

/-- Witness for C10: the hypotheses are satisfiable, e.g. at a NULL item and
the index -1. -/
theorem claim_C10_witness :
    stb_json_getnumbervalue none = .nan ∧ stb_json_getarrayitem none (-1) = none := by
  refine ⟨(claim_C10.1 none (by decide)).1, claim_C10.2.2.2 none (-1) (by decide)⟩

end StbJson

namespace StbJson
theorem can_access_eq (cs : List Nat) (len p d i : Nat) :
    can_access_at_index ⟨cs, len, p, d⟩ i = decide (p + i < len) := rfl

theorem parse_array_nest_ok :
    ∀ j, 1 ≤ j → ∀ f p d cs len rest, 3 * j ≤ f →
      d + j ≤ STB_JSON_NESTING_LIMIT → p + 2 * j ≤ len →
      cs.drop p = List.replicate j 91 ++ List.replicate j 93 ++ rest →
      parse_array f ⟨cs, len, p, d⟩ =
        some (nestedArr (j - 1), ⟨cs, len, p + 2 * j, d⟩) := by
  intro j
  induction j using Nat.strong_induction_on with
  | _ j ih =>
    intro hj f p d cs len rest hf hdep hlen hdrop
    obtain ⟨jj, rfl⟩ : ∃ jj, j = jj + 1 := ⟨j - 1, by omega⟩
    obtain ⟨f1, rfl⟩ : ∃ f1, f = f1 + 1 := ⟨f - 1, by omega⟩
    have hd1 : cs.drop p = 91 :: (List.replicate jj 91 ++ List.replicate (jj + 1) 93 ++ rest) := by
      rw [hdrop, List.replicate_succ]; rfl
    have hd2 : cs.drop (p + 1) = List.replicate jj 91 ++ List.replicate (jj + 1) 93 ++ rest :=
      drop_succ_of_drop hd1
    have hb0 : byte_at_offset ⟨cs, len, p, d + 1⟩ 0 = 91 := by
      rw [byte_at_offset_eq]
      show (cs.drop p).getD 0 0 = 91
      rw [hd1]; rfl
    have hdep' : ¬ (d ≥ STB_JSON_NESTING_LIMIT) := by
      unfold STB_JSON_NESTING_LIMIT at hdep ⊢
      omega
    cases jj with
    | zero =>
        have hd2' : cs.drop (p + 1) = 93 :: rest := by
          rw [hd2]; rfl
        have hb1 : byte_at_offset ⟨cs, len, p + 1, d + 1⟩ 0 = 93 := by
          rw [byte_at_offset_eq]
          show (cs.drop (p + 1)).getD 0 0 = 93
          rw [hd2']; rfl
        have hskip : buffer_skip_whitespace ⟨cs, len, p + 1, d + 1⟩ = ⟨cs, len, p + 1, d + 1⟩ :=
          skip_ws_noop ⟨cs, len, p + 1, d + 1⟩ (by rw [hb1]; omega) (by show p + 1 < len; omega)
        simp only [parse_array, ParseBuffer.depthInc, ParseBuffer.advance]
        rw [if_neg hdep']
        rw [if_neg (by rw [hb0]; omega)]
        rw [hskip]
        rw [if_pos ⟨by rw [can_access_eq]; simp; omega, hb1⟩]
        show some (arrayVal [], (⟨cs, len, p + 1 + 1, d + 1 - 1⟩ : ParseBuffer)) = _
        have h1 : p + 1 + 1 = p + 2 * (0 + 1) := by omega
        have h2 : d + 1 - 1 = d := by omega
        rw [h1, h2]
        rfl
    | succ j2 =>
        have hd2' : cs.drop (p + 1) =
            List.replicate (j2 + 1) 91 ++ List.replicate (j2 + 1) 93 ++ (93 :: rest) := by
          rw [hd2, List.replicate_succ' (j2 + 1) 93]
          simp [List.append_assoc]
        have hb1 : byte_at_offset ⟨cs, len, p + 1, d + 1⟩ 0 = 91 := by
          rw [byte_at_offset_eq]
          show (cs.drop (p + 1)).getD 0 0 = 91
          rw [hd2', List.replicate_succ]; rfl
        have hacc1 : p + 1 < len := by omega
        have hskip : buffer_skip_whitespace ⟨cs, len, p + 1, d + 1⟩ = ⟨cs, len, p + 1, d + 1⟩ :=
          skip_ws_noop ⟨cs, len, p + 1, d + 1⟩ (by rw [hb1]; omega) hacc1
        obtain ⟨f3, rfl⟩ : ∃ f3, f1 = f3 + 2 := ⟨f1 - 2, by omega⟩
        have hpv : parse_value (f3 + 1) ⟨cs, len, p + 1, d + 1⟩ =
            parse_array f3 ⟨cs, len, p + 1, d + 1⟩ :=
          parse_value_lbracket f3 ⟨cs, len, p + 1, d + 1⟩ _
            (by rw [hd2', List.replicate_succ]; rfl) hacc1
        have hin : parse_array f3 ⟨cs, len, p + 1, d + 1⟩ =
            some (nestedArr (j2 + 1 - 1), ⟨cs, len, p + 1 + 2 * (j2 + 1), d + 1⟩) :=
          ih (j2 + 1) (by omega) (by omega) f3 (p + 1) (d + 1) cs len (93 :: rest)
            (by omega) (by omega) (by omega) hd2'
        have hd3 : cs.drop (p + 1 + 2 * (j2 + 1)) = 93 :: rest :=
          drop_after_nest (j2 + 1) (p + 1) cs (93 :: rest) hd2'
        have hb2 : byte_at_offset ⟨cs, len, p + 1 + 2 * (j2 + 1), d + 1⟩ 0 = 93 := by
          rw [byte_at_offset_eq]
          show (cs.drop (p + 1 + 2 * (j2 + 1))).getD 0 0 = 93
          rw [hd3]; rfl
        have hacc2 : p + 1 + 2 * (j2 + 1) < len := by omega
        have hskip2 : buffer_skip_whitespace ⟨cs, len, p + 1 + 2 * (j2 + 1), d + 1⟩ =
            ⟨cs, len, p + 1 + 2 * (j2 + 1), d + 1⟩ :=
          skip_ws_noop ⟨cs, len, p + 1 + 2 * (j2 + 1), d + 1⟩ (by rw [hb2]; omega) hacc2
        have hitems : parse_array_items (f3 + 2) [] ⟨cs, len, p, d + 1⟩ =
            some ([nestedArr j2], ⟨cs, len, p + 1 + 2 * (j2 + 1) + 1, d + 1⟩) := by
          simp only [parse_array_items, ParseBuffer.advance, hskip, hpv, hin, hskip2]
          rw [if_neg (by simp [hb2])]
          rw [if_neg (by rw [can_access_eq]; simp [hb2]; omega)]
          simp
        simp only [parse_array, ParseBuffer.depthInc, ParseBuffer.advance, ParseBuffer.retreat]
        rw [if_neg hdep']
        rw [if_neg (by rw [hb0]; omega)]
        rw [hskip]
        rw [if_neg (by simp [hb1])]
        rw [if_neg (by rw [can_access_eq]; simp; omega)]
        rw [show p + 1 - 1 = p by omega]
        rw [hitems]
        show some (arrayVal [nestedArr j2], (⟨cs, len, p + 1 + 2 * (j2 + 1) + 1, d + 1 - 1⟩ : ParseBuffer)) = _
        have h1 : p + 1 + 2 * (j2 + 1) + 1 = p + 2 * (j2 + 1 + 1) := by omega
        have h2 : d + 1 - 1 = d := by omega
        rw [h1, h2]
        rfl

/-- Any run of more opening brackets than the remaining depth budget makes
`parse_array` fail, whatever follows and whatever the fuel. -/
theorem parse_array_nest_deep :
    ∀ j, ∀ f p d cs len rest,
      STB_JSON_NESTING_LIMIT < d + j → p + j ≤ len →
      cs.drop p = List.replicate j 91 ++ rest →
      parse_array f ⟨cs, len, p, d⟩ = none := by
  intro j
  induction j using Nat.strong_induction_on with
  | _ j ih =>
    intro f p d cs len rest hdeep hlen hdrop
    cases f with
    | zero => rfl
    | succ f1 =>
      by_cases hd : d ≥ STB_JSON_NESTING_LIMIT
      · rw [parse_array, if_pos hd]
      · obtain ⟨jj, rfl⟩ : ∃ jj, j = jj + 1 := by
          refine ⟨j - 1, ?_⟩
          unfold STB_JSON_NESTING_LIMIT at hdeep hd
          omega
        have hjj : 1 ≤ jj := by
          unfold STB_JSON_NESTING_LIMIT at hdeep hd
          omega
        obtain ⟨j2, rfl⟩ : ∃ j2, jj = j2 + 1 := ⟨jj - 1, by omega⟩
        have hd1 : cs.drop p = 91 :: (List.replicate (j2 + 1) 91 ++ rest) := by
          rw [hdrop, List.replicate_succ]; rfl
        have hd2 : cs.drop (p + 1) = List.replicate (j2 + 1) 91 ++ rest :=
          drop_succ_of_drop hd1
        have hb0 : byte_at_offset ⟨cs, len, p, d + 1⟩ 0 = 91 := by
          rw [byte_at_offset_eq]
          show (cs.drop p).getD 0 0 = 91
          rw [hd1]; rfl
        have hb1 : byte_at_offset ⟨cs, len, p + 1, d + 1⟩ 0 = 91 := by
          rw [byte_at_offset_eq]
          show (cs.drop (p + 1)).getD 0 0 = 91
          rw [hd2, List.replicate_succ]; rfl
        have hacc1 : p + 1 < len := by omega
        have hskip : buffer_skip_whitespace ⟨cs, len, p + 1, d + 1⟩ = ⟨cs, len, p + 1, d + 1⟩ :=
          skip_ws_noop ⟨cs, len, p + 1, d + 1⟩ (by rw [hb1]; omega) hacc1
        simp only [parse_array, ParseBuffer.depthInc, ParseBuffer.advance, ParseBuffer.retreat]
        rw [if_neg hd]
        rw [if_neg (by rw [hb0]; omega)]
        rw [hskip]
        rw [if_neg (by simp [hb1])]
        rw [if_neg (by rw [can_access_eq]; simp; omega)]
        rw [show p + 1 - 1 = p by omega]
        cases f1 with
        | zero => rfl
        | succ f2 =>
          have hitems : parse_array_items (f2 + 1) [] ⟨cs, len, p, d + 1⟩ = none := by
            simp only [parse_array_items, ParseBuffer.advance, hskip]
            cases f2 with
            | zero => rfl
            | succ f3 =>
              rw [parse_value_lbracket f3 ⟨cs, len, p + 1, d + 1⟩ _
                    (by rw [hd2, List.replicate_succ]; rfl) hacc1]
              rw [ih (j2 + 1) (by omega) f3 (p + 1) (d + 1) cs len rest
                    (by omega) (by omega) hd2]
          rw [hitems]

/-- A run of opening brackets followed by the invalid byte `x` makes
`parse_array` fail, whatever the depth and the fuel. -/
theorem parse_array_nest_x :
    ∀ j f p d cs len rest, p + j + 1 ≤ len →
      cs.drop p = List.replicate j 91 ++ 120 :: rest →
      parse_array f ⟨cs, len, p, d⟩ = none := by
  intro j
  induction j using Nat.strong_induction_on with
  | _ j ih =>
    intro f p d cs len rest hlen hdrop
    cases f with
    | zero => rfl
    | succ f1 =>
      by_cases hd : d ≥ STB_JSON_NESTING_LIMIT
      · rw [parse_array, if_pos hd]
      · cases j with
        | zero =>
          have hb0 : byte_at_offset ⟨cs, len, p, d + 1⟩ 0 = 120 := by
            rw [byte_at_offset_eq]
            show (cs.drop p).getD 0 0 = 120
            rw [hdrop]; rfl
          simp only [parse_array, ParseBuffer.depthInc]
          rw [if_neg hd]
          rw [if_pos (by rw [hb0]; omega)]
        | succ jj =>
          have hd1 : cs.drop p = 91 :: (List.replicate jj 91 ++ 120 :: rest) := by
            rw [hdrop, List.replicate_succ]; rfl
          have hd2 : cs.drop (p + 1) = List.replicate jj 91 ++ 120 :: rest :=
            drop_succ_of_drop hd1
          have hb0 : byte_at_offset ⟨cs, len, p, d + 1⟩ 0 = 91 := by
            rw [byte_at_offset_eq]
            show (cs.drop p).getD 0 0 = 91
            rw [hd1]; rfl
          have hacc1 : p + 1 < len := by omega
          have hhead : ∃ c tl, cs.drop (p + 1) = c :: tl ∧ 32 < c ∧ c ≠ 93 := by
            cases jj with
            | zero => exact ⟨120, rest, by rw [hd2]; rfl, by omega, by omega⟩
            | succ j2 =>
                exact ⟨91, List.replicate j2 91 ++ 120 :: rest,
                  by rw [hd2, List.replicate_succ]; rfl, by omega, by omega⟩
          obtain ⟨c, tl, hc, hc32, hc93⟩ := hhead
          have hb1 : byte_at_offset ⟨cs, len, p + 1, d + 1⟩ 0 = c := by
            rw [byte_at_offset_eq]
            show (cs.drop (p + 1)).getD 0 0 = c
            rw [hc]; rfl
          have hskip : buffer_skip_whitespace ⟨cs, len, p + 1, d + 1⟩ = ⟨cs, len, p + 1, d + 1⟩ :=
            skip_ws_noop ⟨cs, len, p + 1, d + 1⟩ (by rw [hb1]; omega) hacc1
          simp only [parse_array, ParseBuffer.depthInc, ParseBuffer.advance, ParseBuffer.retreat]
          rw [if_neg hd]
          rw [if_neg (by rw [hb0]; omega)]
          rw [hskip]
          rw [if_neg (by simp [hb1, hc93])]
          rw [if_neg (by rw [can_access_eq]; simp; omega)]
          rw [show p + 1 - 1 = p by omega]
          cases f1 with
          | zero => rfl
          | succ f2 =>
            have hitems : parse_array_items (f2 + 1) [] ⟨cs, len, p, d + 1⟩ = none := by
              simp only [parse_array_items, ParseBuffer.advance, hskip]
              cases jj with
              | zero =>
                rw [parse_value_none_of_head f2 ⟨cs, len, p + 1, d + 1⟩ 120 rest
                      (by rw [hd2]; rfl)
                      (by omega) (by omega) (by omega) (by omega) (by omega)
                      (by omega) (by omega) (by omega)]
              | succ j2 =>
                cases f2 with
                | zero => rfl
                | succ f3 =>
                  rw [parse_value_lbracket f3 ⟨cs, len, p + 1, d + 1⟩ _
                        (by rw [hd2, List.replicate_succ]; rfl) hacc1]
                  rw [ih (j2 + 1) (by omega) f3 (p + 1) (d + 1) cs len rest
                        (by omega) hd2]
            rw [hitems]

theorem treeDepthList_le (m : Nat) : ∀ vs : List Value, (∀ x ∈ vs, treeDepth x ≤ m) →
    treeDepthList vs ≤ m := by
  intro vs
  induction vs with
  | nil => intro _; simp [treeDepthList]
  | cons v vs ih =>
      intro h
      rw [treeDepthList]
      exact max_le (h v (by simp)) (ih (fun x hx => h x (by simp [hx])))

theorem treeDepth_withKey (v : Value) (s : Option Bytes) :
    treeDepth (v.withKey s) = treeDepth v := by
  cases v
  rfl

theorem parse_string_shape (b : ParseBuffer) (v : Value) (b' : ParseBuffer)
    (h : parse_string b = some (v, b')) :
    treeDepth v = 0 ∧ b'.depth = b.depth ∧ v.valuestring.isSome := by
  simp only [parse_string] at h
  split at h
  · cases h
  · split at h
    · cases h
    · obtain ⟨rfl, rfl⟩ : _ ∧ _ := by simpa using h.symm
      exact ⟨rfl, rfl, rfl⟩

theorem parse_number_shape (b : ParseBuffer) (v : Value) (b' : ParseBuffer)
    (h : parse_number b = some (v, b')) : treeDepth v = 0 ∧ b'.depth = b.depth := by
  simp only [parse_number] at h
  split at h
  · cases h
  · split at h
    · cases h
    · obtain ⟨rfl, rfl⟩ : _ ∧ _ := by simpa using h.symm
      exact ⟨rfl, rfl⟩

theorem parse_depth_bound : ∀ f,
    (∀ b v b', parse_value f b = some (v, b') →
        treeDepth v ≤ STB_JSON_NESTING_LIMIT - b.depth ∧ b'.depth = b.depth) ∧
    (∀ b v b', parse_array f b = some (v, b') →
        treeDepth v ≤ STB_JSON_NESTING_LIMIT - b.depth ∧ b'.depth = b.depth) ∧
    (∀ b v b', parse_object f b = some (v, b') →
        treeDepth v ≤ STB_JSON_NESTING_LIMIT - b.depth ∧ b'.depth = b.depth) ∧
    (∀ acc b vs b', parse_array_items f acc b = some (vs, b') →
        (∀ x ∈ acc, treeDepth x ≤ STB_JSON_NESTING_LIMIT - b.depth) →
        (∀ x ∈ vs, treeDepth x ≤ STB_JSON_NESTING_LIMIT - b.depth) ∧ b'.depth = b.depth) ∧
    (∀ acc b vs b', parse_object_items f acc b = some (vs, b') →
        (∀ x ∈ acc, treeDepth x ≤ STB_JSON_NESTING_LIMIT - b.depth) →
        (∀ x ∈ vs, treeDepth x ≤ STB_JSON_NESTING_LIMIT - b.depth) ∧ b'.depth = b.depth) := by
  intro f
  induction f with
  | zero =>
      refine ⟨?_, ?_, ?_, ?_, ?_⟩
      · intro b v b' h; simp [parse_value] at h
      · intro b v b' h; simp [parse_array] at h
      · intro b v b' h; simp [parse_object] at h
      · intro acc b vs b' h; simp [parse_array_items] at h
      · intro acc b vs b' h; simp [parse_object_items] at h
  | succ f ih =>
      obtain ⟨ihv, iha, iho, ihai, ihoi⟩ := ih
      have hskipd : ∀ b : ParseBuffer, (buffer_skip_whitespace b).depth = b.depth :=
        fun b => (buffer_skip_whitespace_fields b).2.2
      refine ⟨?_, ?_, ?_, ?_, ?_⟩
      · -- parse_value
        intro b v b' h
        simp only [parse_value] at h
        split_ifs at h with h1 h2 h3 h4 h5 h6 h7
        · obtain ⟨rfl, rfl⟩ : _ ∧ _ := by simpa using h.symm
          exact ⟨by simp [nullVal, treeDepth], rfl⟩
        · obtain ⟨rfl, rfl⟩ : _ ∧ _ := by simpa using h.symm
          exact ⟨by simp [falseVal, treeDepth], rfl⟩
        · obtain ⟨rfl, rfl⟩ : _ ∧ _ := by simpa using h.symm
          exact ⟨by simp [trueVal, treeDepth], rfl⟩
        · obtain ⟨hd, hdep, _⟩ := parse_string_shape b v b' h
          exact ⟨by omega, hdep⟩
        · obtain ⟨hd, hdep⟩ := parse_number_shape b v b' h
          exact ⟨by omega, hdep⟩
        · exact iha b v b' h
        · exact iho b v b' h
      · -- parse_array
        intro b v b' h
        simp only [parse_array] at h
        split_ifs at h with h1 h2 h3 h4
        · obtain ⟨rfl, rfl⟩ : _ ∧ _ := by simpa using h.symm
          constructor
          · show treeDepth (arrayVal []) ≤ _
            simp only [arrayVal, treeDepth, treeDepthList]
            omega
          · simp [ParseBuffer.depthDec, ParseBuffer.advance, hskipd, ParseBuffer.depthInc]
        · split at h
          · cases h
          · rename_i vs b3 hit
            obtain ⟨rfl, rfl⟩ : _ ∧ _ := by simpa using h.symm
            have hretd : (ParseBuffer.retreat
                (buffer_skip_whitespace ((b.depthInc).advance 1))).depth = b.depth + 1 := by
              simp [ParseBuffer.retreat, hskipd, ParseBuffer.advance, ParseBuffer.depthInc]
            obtain ⟨hvs, hb3⟩ := ihai _ _ _ _ hit (by intro x hx; cases hx)
            rw [hretd] at hvs hb3
            constructor
            · show treeDepth (arrayVal vs) ≤ _
              simp only [arrayVal, treeDepth]
              have := treeDepthList_le _ vs hvs
              omega
            · simp [ParseBuffer.depthDec, hb3]
      · -- parse_object
        intro b v b' h
        simp only [parse_object] at h
        split_ifs at h with h1 h2 h3 h4
        · obtain ⟨rfl, rfl⟩ : _ ∧ _ := by simpa using h.symm
          constructor
          · show treeDepth (objectVal []) ≤ _
            simp only [objectVal, treeDepth, treeDepthList]
            omega
          · simp [ParseBuffer.depthDec, ParseBuffer.advance, hskipd, ParseBuffer.depthInc]
        · split at h
          · cases h
          · rename_i vs b3 hit
            obtain ⟨rfl, rfl⟩ : _ ∧ _ := by simpa using h.symm
            have hretd : (ParseBuffer.retreat
                (buffer_skip_whitespace ((b.depthInc).advance 1))).depth = b.depth + 1 := by
              simp [ParseBuffer.retreat, hskipd, ParseBuffer.advance, ParseBuffer.depthInc]
            obtain ⟨hvs, hb3⟩ := ihoi _ _ _ _ hit (by intro x hx; cases hx)
            rw [hretd] at hvs hb3
            constructor
            · show treeDepth (objectVal vs) ≤ _
              simp only [objectVal, treeDepth]
              have := treeDepthList_le _ vs hvs
              omega
            · simp [ParseBuffer.depthDec, hb3]
      · -- parse_array_items
        intro acc b vs b' h hacc
        simp only [parse_array_items] at h
        split at h
        · cases h
        · rename_i v0 b2 hpv
          have hb1d : (buffer_skip_whitespace (b.advance 1)).depth = b.depth := by
            simp [hskipd, ParseBuffer.advance]
          obtain ⟨hv0, hb2⟩ := ihv _ _ _ hpv
          rw [hb1d] at hv0 hb2
          have hb3d : (buffer_skip_whitespace b2).depth = b.depth := by
            simp [hskipd, hb2]
          split_ifs at h with h1 h2
          · obtain ⟨hvs, hb'⟩ := ihai _ _ _ _ h (by
              intro x hx
              rw [hb3d]
              rcases List.mem_append.1 hx with hx | hx
              · exact hacc x hx
              · simp at hx; subst hx; exact hv0)
            rw [hb3d] at hvs hb'
            exact ⟨hvs, hb'⟩
          · obtain ⟨rfl, rfl⟩ : _ ∧ _ := by simpa using h.symm
            refine ⟨?_, by simp [ParseBuffer.advance, hb3d]⟩
            intro x hx
            rcases List.mem_append.1 hx with hx | hx
            · exact hacc x hx
            · simp at hx; subst hx; exact hv0
      · -- parse_object_items
        intro acc b vs b' h hacc
        simp only [parse_object_items] at h
        split_ifs at h with h1
        split at h
        · cases h
        · rename_i sv b2 hps
          obtain ⟨_, hb2d, _⟩ := parse_string_shape _ _ _ hps
          have hb1d : (buffer_skip_whitespace (b.advance 1)).depth = b.depth := by
            simp [hskipd, ParseBuffer.advance]
          rw [hb1d] at hb2d
          split_ifs at h with h2
          split at h
          · cases h
          · rename_i v0 b5 hpv
            have hb4d : (buffer_skip_whitespace ((buffer_skip_whitespace b2).advance 1)).depth
                = b.depth := by
              simp [hskipd, ParseBuffer.advance, hb2d]
            obtain ⟨hv0, hb5⟩ := ihv _ _ _ hpv
            rw [hb4d] at hv0 hb5
            have hb6d : (buffer_skip_whitespace b5).depth = b.depth := by
              simp [hskipd, hb5]
            split_ifs at h with h3 h4
            · obtain ⟨hvs, hb'⟩ := ihoi _ _ _ _ h (by
                intro x hx
                rw [hb6d]
                rcases List.mem_append.1 hx with hx | hx
                · exact hacc x hx
                · simp at hx; subst hx
                  rw [treeDepth_withKey]
                  exact hv0)
              rw [hb6d] at hvs hb'
              exact ⟨hvs, hb'⟩
            · obtain ⟨rfl, rfl⟩ : _ ∧ _ := by simpa using h.symm
              refine ⟨?_, by simp [ParseBuffer.advance, hb6d]⟩
              intro x hx
              rcases List.mem_append.1 hx with hx | hx
              · exact hacc x hx
              · simp at hx; subst hx
                rw [treeDepth_withKey]
                exact hv0

theorem strlenB_all_nonzero (l : Bytes) (h : ∀ c ∈ l, c ≠ 0) : strlenB l = l.length := by
  unfold strlenB
  have : l.takeWhile (fun c => c ≠ 0) = l := by
    rw [List.takeWhile_eq_self_iff]
    intro a ha
    simpa using h a ha
  rw [this]

/-- Top-level glue: on a NUL-free buffer starting with `[`, `stb_json_parse`
is `parse_array` on the whole buffer (with the entry fuel). -/
theorem stb_json_parse_lbracket (cs tl : List Nat)
    (hnz : ∀ c ∈ cs, c ≠ 0) (hhead : cs = 91 :: tl) :
    stb_json_parse cs =
      (match parse_array (4 * (cs.length + 1) + 7) ⟨cs, cs.length + 1, 0, 0⟩ with
       | none => none
       | some (v, _) => some v) := by
  rw [stb_json_parse, strlenB_all_nonzero cs hnz]
  simp only [stb_json_parse_withlengthopts]
  rw [if_neg (by omega)]
  have hbom : skip_utf8_bom ⟨cs, cs.length + 1, 0, 0⟩ = ⟨cs, cs.length + 1, 0, 0⟩ := by
    unfold skip_utf8_bom
    rw [if_neg]
    intro ⟨_, htake⟩
    rw [show takeBytes ⟨cs, cs.length + 1, 0, 0⟩ 3 = cs.take 3 from rfl, hhead] at htake
    simp at htake
  rw [hbom]
  have hlen0 : 0 < cs.length + 1 := by omega
  have hskip : buffer_skip_whitespace ⟨cs, cs.length + 1, 0, 0⟩ = ⟨cs, cs.length + 1, 0, 0⟩ := by
    refine skip_ws_noop _ ?_ hlen0
    rw [byte_at_offset_eq]
    show (cs.drop 0).getD 0 0 > 32
    rw [List.drop_zero, hhead]
    simp only [List.getD_cons_zero]
    omega
  rw [hskip]
  rw [show 4 * (cs.length + 1) + 8 = (4 * (cs.length + 1) + 7) + 1 by omega]
  rw [parse_value_lbracket (4 * (cs.length + 1) + 7) ⟨cs, cs.length + 1, 0, 0⟩ tl
        (by rw [List.drop_zero, hhead]) hlen0]
  cases parse_array (4 * (cs.length + 1) + 7) ⟨cs, cs.length + 1, 0, 0⟩ with
  | none => rfl
  | some vb => cases vb; rfl

theorem nestInput_nonzero (k : Nat) : ∀ c ∈ nestInput k, c ≠ 0 := by
  intro c hc
  rcases List.mem_append.1 hc with hc | hc <;>
    (rw [List.eq_of_mem_replicate hc]; omega)

theorem nestInput_length (k : Nat) : (nestInput k).length = 2 * k := by
  simp [nestInput]; omega

theorem nestInput_head (k : Nat) :
    nestInput (k + 1) = 91 :: (List.replicate k 91 ++ List.replicate (k + 1) 93) := by
  rw [show nestInput (k + 1) = List.replicate (k + 1) 91 ++ List.replicate (k + 1) 93 from rfl,
      List.replicate_succ]
  rfl

theorem skip_utf8_bom_depth (b : ParseBuffer) : (skip_utf8_bom b).depth = b.depth := by
  unfold skip_utf8_bom
  split <;> rfl

theorem nest_1000_parses :
    stb_json_parse (nestInput 1000) = some (nestedArr 999) := by
  rw [stb_json_parse_lbracket (nestInput 1000)
        (List.replicate 999 91 ++ List.replicate 1000 93)
        (nestInput_nonzero 1000) (nestInput_head 999)]
  rw [nestInput_length]
  rw [parse_array_nest_ok 1000 (by omega) (4 * (2 * 1000 + 1) + 7) 0 0 (nestInput 1000)
        (2 * 1000 + 1) [] (by omega)
        (by unfold STB_JSON_NESTING_LIMIT; omega) (by omega)
        (by rw [List.drop_zero, List.append_nil]; rfl)]

theorem nest_1001_fails :
    stb_json_parse (nestInput 1001) = none := by
  rw [stb_json_parse_lbracket (nestInput 1001)
        (List.replicate 1000 91 ++ List.replicate 1001 93)
        (nestInput_nonzero 1001) (nestInput_head 1000)]
  rw [nestInput_length]
  rw [parse_array_nest_deep 1001 (4 * (2 * 1001 + 1) + 7) 0 0 (nestInput 1001)
        (2 * 1001 + 1) (List.replicate 1001 93)
        (by unfold STB_JSON_NESTING_LIMIT; omega) (by omega)
        (by rw [List.drop_zero]; rfl)]

theorem nestXInput_eq (k : Nat) :
    nestXInput k = List.replicate k 91 ++ 120 :: List.replicate k 93 := by
  simp [nestXInput]

theorem nestXInput_nonzero (k : Nat) : ∀ c ∈ nestXInput k, c ≠ 0 := by
  intro c hc
  rw [nestXInput_eq] at hc
  rcases List.mem_append.1 hc with hc | hc
  · rw [List.eq_of_mem_replicate hc]; omega
  · rcases List.mem_cons.1 hc with rfl | hc
    · omega
    · rw [List.eq_of_mem_replicate hc]; omega

theorem nestX_1000_fails :
    stb_json_parse (nestXInput 1000) = none := by
  have hh : nestXInput 1000 =
      91 :: (List.replicate 999 91 ++ 120 :: List.replicate 1000 93) := by
    rw [nestXInput_eq, show (1000 : Nat) = 999 + 1 from rfl, List.replicate_succ]
    rfl
  rw [stb_json_parse_lbracket (nestXInput 1000)
        (List.replicate 999 91 ++ 120 :: List.replicate 1000 93)
        (nestXInput_nonzero 1000) hh]
  have hlen : (nestXInput 1000).length = 2001 := by
    rw [nestXInput_eq]
    simp only [List.length_append, List.length_cons, List.length_replicate]
  rw [hlen]
  rw [parse_array_nest_x 1000 (4 * (2001 + 1) + 7) 0 0 (nestXInput 1000)
        (2001 + 1) (List.replicate 1000 93) (by omega)
        (by rw [List.drop_zero, nestXInput_eq])]

theorem parse_depth_top (s : Bytes) (v : Value) (h : stb_json_parse s = some v) :
    treeDepth v ≤ STB_JSON_NESTING_LIMIT := by
  rw [stb_json_parse] at h
  simp only [stb_json_parse_withlengthopts] at h
  rw [if_neg (by omega : ¬ strlenB s + 1 = 0)] at h
  set b1 := buffer_skip_whitespace (skip_utf8_bom ⟨s, strlenB s + 1, 0, 0⟩) with hb1
  cases hpv : parse_value (4 * (strlenB s + 1) + 8) b1 with
  | none => rw [hpv] at h; cases h
  | some vb =>
      obtain ⟨v0, b2⟩ := vb
      rw [hpv] at h
      simp only [Bool.false_eq_true, if_false, Option.some.injEq] at h
      subst h
      have hd := ((parse_depth_bound (4 * (strlenB s + 1) + 8)).1 b1 v0 b2 hpv).1
      have hdepth : b1.depth = 0 := by
        rw [hb1]
        rw [(buffer_skip_whitespace_fields _).2.2, skip_utf8_bom_depth]
      rw [hdepth] at hd
      omega

/-- Claim C3 (corrected): the parser enforces the nesting limit
`STB_JSON_NESTING_LIMIT = 1000`, but the claim's phrasing that exactly
1000-deep input parses while 1001-deep input fails holds only for the
well-formed bracket strings: 1000 nested arrays parse, 1001 fail, and
every successfully parsed tree has depth at most the limit.  (The claim
as written, over arbitrary inputs with 1000 `[`s, is refuted by the
counterexample below.) -/
theorem claim_C3 :
    stb_json_parse (nestInput 1000) = some (nestedArr 999) ∧
    stb_json_parse (nestInput 1001) = none ∧
    ∀ (s : Bytes) (v : Value), stb_json_parse s = some v →
      treeDepth v ≤ STB_JSON_NESTING_LIMIT :=
  ⟨nest_1000_parses, nest_1001_fails, parse_depth_top⟩

/-- Claim C3 counterexample: a malformed input with exactly 1000 opening
brackets (followed by a junk byte) is rejected, so "1000 levels parse"
is false for arbitrary inputs at the boundary. -/
theorem claim_C3_counterexample :
    stb_json_parse (nestXInput 1000) = none :=
  nestX_1000_fails

theorem claim_C3_witness :
    stb_json_parse [91, 93] = some (arrayVal []) ∧
    treeDepth (arrayVal []) ≤ STB_JSON_NESTING_LIMIT :=
  ⟨by decide, claim_C3.2.2 [91, 93] (arrayVal []) (by decide)⟩

/-- Claim C6 (corrected): `parse_value` dispatches only on `-` and the
digits for numbers, so any value whose first byte is `+` (43) is
rejected — contrary to the claim that a leading `+` is accepted. -/
theorem claim_C6 (f : Nat) (b : ParseBuffer) (tl : List Nat)
    (hdrop : b.content.drop b.offset = 43 :: tl) :
    parse_value f b = none :=
  parse_value_none_of_head f b 43 tl hdrop
    (by omega) (by omega) (by omega) (by omega) (by omega) (by omega) (by omega) (by omega)

/-- Claim C6 counterexample: the full parser rejects the input "+5",
which the claim asserts parses as the number 5. -/
theorem claim_C6_counterexample :
    stb_json_parse [43, 53] = none := by decide

theorem claim_C6_witness :
    parse_value 12 ⟨[43, 53], 3, 0, 0⟩ = none :=
  claim_C6 12 ⟨[43, 53], 3, 0, 0⟩ [53] rfl

end StbJson

namespace StbJson

/-- Claim C7 (code_bug): minification is NOT idempotent.  On the input
`"a\"b"` the escaped-quote handling in `minify_string` advances the read
pointer twice (the extra advance at src line 747 plus the loop increment),
so the byte after an escaped quote is dropped: one pass yields `"a\""`
and a second pass yields `"a\"`, which differs. -/
theorem claim_C7 :
    stb_json_minify (stb_json_minify [34, 97, 92, 34, 98, 34]) ≠
      stb_json_minify [34, 97, 92, 34, 98, 34] ∧
    stb_json_minify [34, 97, 92, 34, 98, 34] = [34, 97, 92, 34, 34] ∧
    stb_json_minify [34, 97, 92, 34, 34] = [34, 97, 92, 34] := by decide

end StbJson

namespace StbJson

theorem setChildren_kind (t : Value) (ch : List Value) :
    (t.setChildren ch).kind = t.kind := by
  cases t; rfl

theorem delete_item_kind (t : Value) (name : Bytes) (cs : Bool) :
    (stb_json_deleteitemfromobject t name cs).kind = t.kind := by
  unfold stb_json_deleteitemfromobject stb_json_detachitemfromobject
  cases detach_loop name cs t.children with
  | none => rfl
  | some p => exact setChildren_kind t p.2

theorem additem_kind (t : Value) (s : Bytes) (item : Value) :
    (stb_json_additemtoobject t s item).kind = t.kind := by
  unfold stb_json_additemtoobject
  cases item
  exact setChildren_kind t _

theorem merge_children_kind : ∀ (l : List Value) (t : Value) (cs : Bool) (v : Value),
    merge_children t l cs = some v → v.kind = t.kind := by
  intro l
  induction l with
  | nil =>
      intro t cs v h
      simp only [merge_children, Option.some.injEq] at h
      subst h; rfl
  | cons pc rest ih =>
      intro t cs v h
      simp only [merge_children] at h
      split_ifs at h with h1
      · split at h
        · exact ih t cs v h
        · rw [ih _ cs v h]
          exact delete_item_kind t _ cs
      · split at h
        · split at h
          · cases h
          · exact ih t cs v h
        · split at h
          · cases h
          · rw [ih _ cs v h, additem_kind]
            unfold stb_json_detachitemfromobject
            split
            · rfl
            · exact setChildren_kind t _

/-- Claim C8 (corrected): a non-object patch replaces the target wholesale
(with `stb_json_duplicate patch 1`, which can itself fail past the circular
limit); an object patch always produces an object; and the claim's concrete
example holds.  The universally quantified deletion clause of the claim is
false for duplicate keys (see the counterexample): only the first matching
binding is deleted, and the merged keys are re-appended at the end. -/
theorem claim_C8 :
    (∀ (target : Option Value) (patch : Value) (cs : Bool),
        patch.kind ≠ .object →
        merge_patch target patch cs = stb_json_duplicate patch true) ∧
    (∀ (target : Option Value) (patch : Value) (cs : Bool) (v : Value),
        patch.kind = .object → merge_patch target patch cs = some v →
        v.kind = .object) ∧
    stb_json_utils_mergepatch (some c8base) c8patch = some c8result := by
  refine ⟨?_, ?_, by decide⟩
  · intro target patch cs h
    cases patch with
    | mk k r c vs vi vd s ch =>
        simp only [merge_patch, stb_json_duplicate]
        rw [if_pos]
        exact h
  · intro target patch cs v hk h
    cases patch with
    | mk k r c vs vi vd s ch =>
        have hk2 : k = .object := hk
        subst hk2
        simp only [merge_patch, if_neg (by simp : ¬ (JKind.object ≠ JKind.object))] at h
        have := merge_children_kind ch _ cs v h
        rw [this]
        cases target with
        | none => rfl
        | some t =>
            show (if t.kind = JKind.object then t else objectVal []).kind = _
            split_ifs with h2
            · exact h2
            · rfl

/-- Claim C8 counterexample: with a duplicate-keyed target, a null patch
value deletes only the FIRST matching binding, not each one: the second
binding for key "a" survives the merge. -/
theorem claim_C8_counterexample :
    stb_json_utils_mergepatch (some c8dup) c8nullPatch = some c8dupResult ∧
    get_object_item c8dupResult [97] false ≠ none := by decide

theorem claim_C8_witness :
    merge_patch (some c8base) (numberV (Rat.divInt 5 1) 5) false =
      stb_json_duplicate (numberV (Rat.divInt 5 1) 5) true ∧
    merge_patch (some c8base) c8patch false = some c8result ∧
    c8result.kind = .object :=
  ⟨claim_C8.1 (some c8base) (numberV (Rat.divInt 5 1) 5) false (by decide),
   claim_C8.2.2,
   claim_C8.2.1 (some c8base) c8patch false c8result (by decide) claim_C8.2.2⟩

end StbJson

namespace StbJson

theorem setNext_next (h : Heap) (j : Nat) (v : Option Nat) (k : Nat) :
    (setNext h j v k).next = if k = j then v else (h k).next := by
  unfold setNext; split <;> rfl

theorem setNext_prev (h : Heap) (j : Nat) (v : Option Nat) (k : Nat) :
    (setNext h j v k).prev = (h k).prev := by
  unfold setNext; split <;> rfl

theorem setNext_child (h : Heap) (j : Nat) (v : Option Nat) (k : Nat) :
    (setNext h j v k).child = (h k).child := by
  unfold setNext; split <;> rfl

theorem setPrev_next (h : Heap) (j : Nat) (v : Option Nat) (k : Nat) :
    (setPrev h j v k).next = (h k).next := by
  unfold setPrev; split <;> rfl

theorem setPrev_prev (h : Heap) (j : Nat) (v : Option Nat) (k : Nat) :
    (setPrev h j v k).prev = if k = j then v else (h k).prev := by
  unfold setPrev; split <;> rfl

theorem setPrev_child (h : Heap) (j : Nat) (v : Option Nat) (k : Nat) :
    (setPrev h j v k).child = (h k).child := by
  unfold setPrev; split <;> rfl

theorem setChild_next (h : Heap) (j : Nat) (v : Option Nat) (k : Nat) :
    (setChild h j v k).next = (h k).next := by
  unfold setChild; split <;> rfl

theorem setChild_prev (h : Heap) (j : Nat) (v : Option Nat) (k : Nat) :
    (setChild h j v k).prev = (h k).prev := by
  unfold setChild; split <;> rfl

theorem setChild_child (h : Heap) (j : Nat) (v : Option Nat) (k : Nat) :
    (setChild h j v k).child = if k = j then v else (h k).child := by
  unfold setChild; split <;> rfl

theorem getLastD_mem : ∀ (l : List Nat) (x : Nat), l.getLastD x ∈ x :: l := by
  intro l
  induction l with
  | nil => intro x; simp [List.getLastD]
  | cons y rest ih =>
      intro x
      rw [List.getLastD_cons]
      have hy := ih y
      simp only [List.mem_cons] at hy ⊢
      tauto

theorem getLastD_append_cons :
    ∀ (l1 : List Nat) (a : Nat) (l2 : List Nat) (d : Nat),
      (l1 ++ a :: l2).getLastD d = l2.getLastD a := by
  intro l1
  induction l1 with
  | nil => intro a l2 d; exact List.getLastD_cons d a l2
  | cons b l1x ih =>
      intro a l2 d
      show ((b :: (l1x ++ a :: l2)).getLastD d) = _
      rw [List.getLastD_cons]
      exact ih a l2 b

theorem getLastD_snoc (l : List Nat) (i d : Nat) : (l ++ [i]).getLastD d = i :=
  getLastD_append_cons l i [] d

theorem chainNexts_congr (h h' : Heap) : ∀ (l : List Nat) (x : Nat),
    (∀ z ∈ x :: l, (h' z).next = (h z).next) →
    chainNexts h' x l = chainNexts h x l := by
  intro l
  induction l with
  | nil =>
      intro x hag
      simp only [chainNexts]
      rw [hag x (by simp)]
  | cons y rest ih =>
      intro x hag
      simp only [chainNexts]
      rw [hag x (by simp), ih y ?_]
      intro z hz
      apply hag
      simp only [List.mem_cons] at hz ⊢
      tauto

theorem chainPrevs_congr (h h' : Heap) : ∀ (l : List Nat) (a : Nat),
    (∀ z ∈ l, (h' z).prev = (h z).prev) →
    chainPrevs h' a l = chainPrevs h a l := by
  intro l
  induction l with
  | nil => intro a hag; rfl
  | cons b rest ih =>
      intro a hag
      simp only [chainPrevs]
      rw [hag b (by simp), ih b ?_]
      intro z hz
      apply hag
      simp [hz]

theorem walk_chainNexts (h : Heap) : ∀ (l : List Nat) (x : Nat),
    chainNexts h x l = true →
    ∀ k, walk h (some x) k = (x :: l).get? k := by
  intro l
  induction l with
  | nil =>
      intro x hc k
      cases k with
      | zero => rfl
      | succ k2 =>
          simp only [chainNexts, decide_eq_true_eq] at hc
          show walk h (h x).next k2 = _
          rw [hc]
          cases k2 <;> rfl
  | cons y rest ih =>
      intro x hc k
      simp only [chainNexts, Bool.and_eq_true, decide_eq_true_eq] at hc
      cases k with
      | zero => rfl
      | succ k2 =>
          show walk h (h x).next k2 = _
          rw [hc.1, ih y hc.2 k2]
          rfl

theorem chainNexts_snoc (h h' : Heap) :
    ∀ (l : List Nat) (x i : Nat),
      chainNexts h x l = true →
      (∀ z ∈ x :: l, z ≠ l.getLastD x → (h' z).next = (h z).next) →
      (h' (l.getLastD x)).next = some i →
      (h' i).next = none →
      (x :: l).Nodup →
      chainNexts h' x (l ++ [i]) = true := by
  intro l
  induction l with
  | nil =>
      intro x i _ _ hlast hi _
      show ((h' x).next = some i && chainNexts h' i []) = true
      simp only [chainNexts]
      rw [show [].getLastD x = x from rfl] at hlast
      simp [hlast, hi]
  | cons y rest ih =>
      intro x i hc hag hlast hi hnd
      simp only [chainNexts, Bool.and_eq_true, decide_eq_true_eq] at hc
      rw [List.getLastD_cons] at hlast
      have hmem : rest.getLastD y ∈ y :: rest := getLastD_mem rest y
      have hxne : x ≠ rest.getLastD y := by
        intro e
        exact (List.nodup_cons.1 hnd).1 (e ▸ hmem)
      show ((h' x).next = some y && chainNexts h' y (rest ++ [i])) = true
      simp only [Bool.and_eq_true, decide_eq_true_eq]
      refine ⟨?_, ?_⟩
      · rw [hag x (by simp) (by rw [List.getLastD_cons]; exact hxne)]
        exact hc.1
      · refine ih y i hc.2 ?_ hlast hi (List.nodup_cons.1 hnd).2
        intro z hz hzne
        exact hag z (by simp only [List.mem_cons, List.mem_append] at hz ⊢; tauto) (by rw [List.getLastD_cons]; exact hzne)

theorem chainPrevs_snoc (h h' : Heap) :
    ∀ (l : List Nat) (x i : Nat),
      chainPrevs h x l = true →
      (∀ z ∈ l, (h' z).prev = (h z).prev) →
      (h' i).prev = some (l.getLastD x) →
      chainPrevs h' x (l ++ [i]) = true := by
  intro l
  induction l with
  | nil =>
      intro x i _ _ hi
      show ((h' i).prev = some x && chainPrevs h' i []) = true
      rw [show [].getLastD x = x from rfl] at hi
      simp [chainPrevs, hi]
  | cons b rest ih =>
      intro x i hc hag hi
      simp only [chainPrevs, Bool.and_eq_true, decide_eq_true_eq] at hc
      rw [List.getLastD_cons] at hi
      show ((h' b).prev = some x && chainPrevs h' b (rest ++ [i])) = true
      simp only [Bool.and_eq_true, decide_eq_true_eq]
      refine ⟨?_, ih b i hc.2 (fun z hz => hag z (by simp [hz])) hi⟩
      rw [hag b (by simp)]
      exact hc.1

theorem chainNexts_at (h : Heap) :
    ∀ (A : List Nat) (x i : Nat) (B : List Nat),
      chainNexts h x (A ++ i :: B) = true → (h i).next = B.head? := by
  intro A
  induction A with
  | nil =>
      intro x i B hc
      simp only [List.nil_append, chainNexts, Bool.and_eq_true, decide_eq_true_eq] at hc
      cases B with
      | nil =>
          simp only [chainNexts, decide_eq_true_eq] at hc
          exact hc.2
      | cons b B2 =>
          simp only [chainNexts, Bool.and_eq_true, decide_eq_true_eq] at hc
          exact hc.2.1
  | cons a A2 ih =>
      intro x i B hc
      simp only [List.cons_append, chainNexts, Bool.and_eq_true] at hc
      exact ih a i B hc.2

theorem chainPrevs_at (h : Heap) :
    ∀ (A : List Nat) (x after : Nat) (B : List Nat),
      chainPrevs h x (A ++ after :: B) = true →
      (h after).prev = some (A.getLastD x) := by
  intro A
  induction A with
  | nil =>
      intro x after B hc
      simp only [List.nil_append, chainPrevs, Bool.and_eq_true, decide_eq_true_eq] at hc
      exact hc.1
  | cons a A2 ih =>
      intro x after B hc
      simp only [List.cons_append, chainPrevs, Bool.and_eq_true] at hc
      rw [List.getLastD_cons]
      exact ih a after B hc.2

theorem chainNexts_splice (h h' : Heap) :
    ∀ (A : List Nat) (x i after : Nat) (B : List Nat),
      chainNexts h x (A ++ after :: B) = true →
      (h' (A.getLastD x)).next = some i →
      (h' i).next = some after →
      (∀ z ∈ x :: (A ++ after :: B), z ≠ A.getLastD x → (h' z).next = (h z).next) →
      (x :: (A ++ after :: B)).Nodup →
      chainNexts h' x (A ++ i :: after :: B) = true := by
  intro A
  induction A with
  | nil =>
      intro x i after B hc hq hi hag hnd
      simp only [List.nil_append, chainNexts, Bool.and_eq_true, decide_eq_true_eq] at hc ⊢
      rw [show [].getLastD x = x from rfl] at hq
      refine ⟨hq, hi, ?_⟩
      rw [chainNexts_congr h h' B after ?_]
      · exact hc.2
      · intro z hz
        refine hag z (by simp only [List.mem_cons, List.mem_append] at hz ⊢; tauto) ?_
        intro e
        rw [show [].getLastD x = x from rfl] at e
        subst e
        exact (List.nodup_cons.1 hnd).1 (by simpa using hz)
  | cons a A2 ih =>
      intro x i after B hc hq hi hag hnd
      simp only [List.cons_append, chainNexts, Bool.and_eq_true, decide_eq_true_eq] at hc ⊢
      rw [List.getLastD_cons] at hq
      have hmem : A2.getLastD a ∈ a :: A2 := getLastD_mem A2 a
      have hxne : x ≠ A2.getLastD a := by
        intro e
        refine (List.nodup_cons.1 hnd).1 ?_
        rw [← e] at hmem
        rcases List.mem_cons.1 hmem with e2 | e2
        · simp [e2]
        · simp [List.mem_append.2 (Or.inl e2)]
      refine ⟨?_, ih a i after B hc.2 hq hi ?_ (List.nodup_cons.1 hnd).2⟩
      · rw [hag x (by simp) (by rw [List.getLastD_cons]; exact hxne)]
        exact hc.1
      · intro z hz hzne
        exact hag z (by simp only [List.mem_cons, List.mem_append] at hz ⊢; tauto)
          (by rw [List.getLastD_cons]; exact hzne)

theorem chainPrevs_splice (h h' : Heap) :
    ∀ (A : List Nat) (x i after : Nat) (B : List Nat),
      chainPrevs h x (A ++ after :: B) = true →
      (h' i).prev = some (A.getLastD x) →
      (h' after).prev = some i →
      (∀ z ∈ A ++ B, (h' z).prev = (h z).prev) →
      chainPrevs h' x (A ++ i :: after :: B) = true := by
  intro A
  induction A with
  | nil =>
      intro x i after B hc hi hafter hag
      simp only [List.nil_append, chainPrevs, Bool.and_eq_true, decide_eq_true_eq] at hc ⊢
      rw [show [].getLastD x = x from rfl] at hi
      refine ⟨hi, hafter, ?_⟩
      rw [chainPrevs_congr h h' B after (fun z hz => hag z (by simpa using hz))]
      exact hc.2
  | cons a A2 ih =>
      intro x i after B hc hi hafter hag
      simp only [List.cons_append, chainPrevs, Bool.and_eq_true, decide_eq_true_eq] at hc ⊢
      rw [List.getLastD_cons] at hi
      refine ⟨?_, ih a i after B hc.2 hi hafter ?_⟩
      · rw [hag a (by simp)]
        exact hc.1
      · intro z hz
        exact hag z (by simp [List.mem_append.1 hz])

theorem chainNexts_unsplice (h h' : Heap) :
    ∀ (A : List Nat) (x i : Nat) (B : List Nat),
      chainNexts h x (A ++ i :: B) = true →
      (h' (A.getLastD x)).next = B.head? →
      (∀ z ∈ x :: (A ++ B), z ≠ A.getLastD x → (h' z).next = (h z).next) →
      (x :: (A ++ i :: B)).Nodup →
      chainNexts h' x (A ++ B) = true := by
  intro A
  induction A with
  | nil =>
      intro x i B hc hq hag hnd
      simp only [List.nil_append, chainNexts, Bool.and_eq_true, decide_eq_true_eq] at hc
      rw [show [].getLastD x = x from rfl] at hq
      cases B with
      | nil =>
          simp only [List.nil_append, chainNexts, decide_eq_true_eq]
          exact hq
      | cons b B2 =>
          simp only [chainNexts, Bool.and_eq_true, decide_eq_true_eq] at hc
          show ((h' x).next = some b && chainNexts h' b B2) = true
          simp only [Bool.and_eq_true, decide_eq_true_eq]
          refine ⟨hq, ?_⟩
          rw [chainNexts_congr h h' B2 b ?_]
          · exact hc.2.2
          · intro z hz
            refine hag z (by simp only [List.mem_cons, List.mem_append] at hz ⊢; tauto) ?_
            intro e
            subst e
            exact (List.nodup_cons.1 hnd).1
              (by simp only [List.mem_cons, List.mem_append] at hz ⊢; tauto)
  | cons a A2 ih =>
      intro x i B hc hq hag hnd
      simp only [List.cons_append, chainNexts, Bool.and_eq_true, decide_eq_true_eq] at hc ⊢
      rw [List.getLastD_cons] at hq
      have hmem : A2.getLastD a ∈ a :: A2 := getLastD_mem A2 a
      have hxne : x ≠ A2.getLastD a := by
        intro e
        refine (List.nodup_cons.1 hnd).1 ?_
        rw [← e] at hmem
        rcases List.mem_cons.1 hmem with e2 | e2
        · simp [e2]
        · simp [List.mem_append.2 (Or.inl e2)]
      refine ⟨?_, ih a i B hc.2 hq ?_ (List.nodup_cons.1 hnd).2⟩
      · rw [hag x (by simp) (by rw [List.getLastD_cons]; exact hxne)]
        exact hc.1
      · intro z hz hzne
        exact hag z (by simp only [List.mem_cons, List.mem_append] at hz ⊢; tauto)
          (by rw [List.getLastD_cons]; exact hzne)

theorem chainPrevs_unsplice (h h' : Heap) :
    ∀ (A : List Nat) (x i b : Nat) (B2 : List Nat),
      chainPrevs h x (A ++ i :: b :: B2) = true →
      (h' b).prev = some (A.getLastD x) →
      (∀ z ∈ A ++ B2, (h' z).prev = (h z).prev) →
      chainPrevs h' x (A ++ b :: B2) = true := by
  intro A
  induction A with
  | nil =>
      intro x i b B2 hc hb hag
      simp only [List.nil_append, chainPrevs, Bool.and_eq_true, decide_eq_true_eq] at hc ⊢
      rw [show [].getLastD x = x from rfl] at hb
      refine ⟨hb, ?_⟩
      rw [chainPrevs_congr h h' B2 b (fun z hz => hag z (by simpa using hz))]
      exact hc.2.2
  | cons a A2 ih =>
      intro x i b B2 hc hb hag
      simp only [List.cons_append, chainPrevs, Bool.and_eq_true, decide_eq_true_eq] at hc ⊢
      rw [List.getLastD_cons] at hb
      refine ⟨?_, ih a i b B2 hc.2 hb ?_⟩
      · rw [hag a (by simp)]
        exact hc.1
      · intro z hz
        exact hag z (by simp [List.mem_append.1 hz])

theorem chainPrevs_append_left (h : Heap) :
    ∀ (l1 : List Nat) (x : Nat) (l2 : List Nat),
      chainPrevs h x (l1 ++ l2) = true → chainPrevs h x l1 = true := by
  intro l1
  induction l1 with
  | nil => intro x l2 _; rfl
  | cons b rest ih =>
      intro x l2 hc
      simp only [List.cons_append, chainPrevs, Bool.and_eq_true] at hc ⊢
      exact ⟨hc.1, ih b l2 hc.2⟩

theorem take_get_drop :
    ∀ (l : List Nat) (w : Nat) (a : Nat), l.get? w = some a →
      l = l.take w ++ a :: l.drop (w + 1) := by
  intro l
  induction l with
  | nil => intro w a hw; cases w <;> cases hw
  | cons y rest ih =>
      intro w a hw
      cases w with
      | zero =>
          simp only [List.get?] at hw
          cases hw
          rfl
      | succ w2 =>
          simp only [List.get?] at hw
          show y :: rest = y :: (rest.take w2 ++ a :: rest.drop (w2 + 1))
          rw [← ih w2 a hw]

theorem add_preserves_chainOk (h : Heap) (p i : Nat) (l : List Nat)
    (hok : chainOk h p l = true) (hp : p ∉ l) (hi : i ∉ l) (hip : i ≠ p)
    (hfresh : (h i).next = none) (hnd : l.Nodup) :
    chainOk (add_item_to_array h p i) p (l ++ [i]) = true := by
  unfold add_item_to_array
  rw [if_neg hip]
  cases l with
  | nil =>
      simp only [chainOk, decide_eq_true_eq] at hok
      rw [hok]
      simp only [List.nil_append, chainOk, chainNexts, chainPrevs,
        Bool.and_eq_true, decide_eq_true_eq]
      refine ⟨⟨⟨?_, ?_⟩, ?_⟩, trivial⟩
      · rw [setPrev_child, setChild_child, if_pos rfl]
      · rw [setPrev_next, setChild_next]
        exact hfresh
      · rw [setPrev_prev, if_pos rfl]
        rfl
  | cons x rest =>
      simp only [chainOk, Bool.and_eq_true, decide_eq_true_eq] at hok
      obtain ⟨⟨⟨hchild, hnext⟩, hhead⟩, hprevs⟩ := hok
      simp only [hchild, hhead]
      have hti : rest.getLastD x ≠ i := by
        intro e
        exact hi (e ▸ getLastD_mem rest x)
      have hxi : x ≠ i := fun e => hi (e ▸ List.mem_cons_self x rest)
      show chainOk _ p (x :: (rest ++ [i])) = true
      simp only [chainOk, Bool.and_eq_true, decide_eq_true_eq]
      refine ⟨⟨⟨?_, ?_⟩, ?_⟩, ?_⟩
      · rw [setPrev_child, setPrev_child, setNext_child]
        exact hchild
      · refine chainNexts_snoc h _ rest x i hnext ?_ ?_ ?_ hnd
        · intro z hz hzne
          rw [setPrev_next, setPrev_next, setNext_next, if_neg hzne]
        · rw [setPrev_next, setPrev_next, setNext_next, if_pos rfl]
        · rw [setPrev_next, setPrev_next, setNext_next, if_neg (Ne.symm hti)]
          exact hfresh
      · rw [setPrev_prev, if_pos rfl, getLastD_snoc]
      · refine chainPrevs_snoc h _ rest x i hprevs ?_ ?_
        · intro z hz
          have hzx : z ≠ x := by
            intro e
            exact (List.nodup_cons.1 hnd).1 (e ▸ hz)
          have hzi : z ≠ i := fun e => hi (e ▸ List.mem_cons_of_mem x hz)
          rw [setPrev_prev, if_neg hzx, setPrev_prev, if_neg hzi, setNext_prev]
        · rw [setPrev_prev, if_neg (Ne.symm hxi), setPrev_prev, if_pos rfl]


theorem drop_append_len (l1 l2 : List Nat) (w : Nat) (hw : l1.length = w) :
    (l1 ++ l2).drop w = l2 := by
  subst hw; exact List.drop_left l1 l2

theorem take_append_len (l1 l2 : List Nat) (w : Nat) (hw : l1.length = w) :
    (l1 ++ l2).take w = l1 := by
  subst hw; exact List.take_left l1 l2

theorem insert_before_head (h : Heap) (p i x : Nat) (rest : List Nat)
    (hchild : (h p).child = some x) (hnext : chainNexts h x rest = true)
    (hhead : (h x).prev = some (rest.getLastD x))
    (hprevs : chainPrevs h x rest = true)
    (hi : i ∉ x :: rest) (hnd : (x :: rest).Nodup) :
    chainOk (insert_before h p x i) p (i :: x :: rest) = true := by
  have hxi : x ≠ i := fun e => hi (e ▸ List.mem_cons_self x rest)
  simp only [insert_before]
  rw [setNext_prev, hhead]
  rw [show (setPrev (setPrev (setNext h i (some x)) i (some (rest.getLastD x)))
        x (some i) p).child = (h p).child by
    rw [setPrev_child, setPrev_child, setNext_child]]
  rw [hchild, if_pos rfl]
  simp only [chainOk, Bool.and_eq_true, decide_eq_true_eq]
  refine ⟨⟨⟨?_, ?_⟩, ?_⟩, ?_⟩
  · rw [setChild_child, if_pos rfl]
  · show chainNexts _ i (x :: rest) = true
    simp only [chainNexts, Bool.and_eq_true, decide_eq_true_eq]
    constructor
    · rw [setChild_next, setPrev_next, setPrev_next, setNext_next, if_pos rfl]
    · refine (chainNexts_congr h _ rest x ?_).trans hnext
      intro z hz
      have hzi : z ≠ i := fun e => hi (e ▸ hz)
      rw [setChild_next, setPrev_next, setPrev_next, setNext_next, if_neg hzi]
  · rw [List.getLastD_cons]
    rw [setChild_prev, setPrev_prev, if_neg (Ne.symm hxi), setPrev_prev,
      if_pos rfl]
  · show chainPrevs _ i (x :: rest) = true
    simp only [chainPrevs, Bool.and_eq_true, decide_eq_true_eq]
    constructor
    · rw [setChild_prev, setPrev_prev, if_pos rfl]
    · refine (chainPrevs_congr h _ rest x ?_).trans hprevs
      intro z hz
      have hzx : z ≠ x := by
        intro e
        exact (List.nodup_cons.1 hnd).1 (e ▸ hz)
      have hzi : z ≠ i := fun e => hi (e ▸ List.mem_cons_of_mem x hz)
      rw [setChild_prev, setPrev_prev, if_neg hzx, setPrev_prev, if_neg hzi,
        setNext_prev]

theorem setNextO_some (h : Heap) (q : Nat) (v : Option Nat) :
    setNextO h (some q) v = setNext h q v := rfl

theorem insert_before_mid (h : Heap) (p i x after : Nat) (A2 B : List Nat)
    (hchild : (h p).child = some x)
    (hnext : chainNexts h x (A2 ++ after :: B) = true)
    (hhead : (h x).prev = some ((A2 ++ after :: B).getLastD x))
    (hprevs : chainPrevs h x (A2 ++ after :: B) = true)
    (hi : i ∉ x :: (A2 ++ after :: B))
    (hnd : (x :: (A2 ++ after :: B)).Nodup) :
    chainOk (insert_before h p after i) p (x :: (A2 ++ i :: after :: B)) = true := by
  have hq : (h after).prev = some (A2.getLastD x) :=
    chainPrevs_at h A2 x after B hprevs
  have hxtail : x ∉ A2 ++ after :: B := (List.nodup_cons.1 hnd).1
  have hxa : x ≠ after := by
    intro e
    exact hxtail (by simp [e])
  have hxi : x ≠ i := fun e => hi (e ▸ List.mem_cons_self x _)
  have hia : i ≠ after := by
    intro e
    exact hi (by simp [e])
  have hqmem : A2.getLastD x ∈ x :: (A2 ++ after :: B) := by
    have := getLastD_mem A2 x
    simp only [List.mem_cons, List.mem_append] at this ⊢
    tauto
  have hqi : A2.getLastD x ≠ i := fun e => hi (e ▸ hqmem)
  have htl := (List.nodup_cons.1 hnd).2
  rcases List.nodup_append.1 htl with ⟨hA2nd, hcb, hdisj⟩
  have haA : after ∉ A2 := fun e => hdisj e (List.mem_cons_self after B)
  have haB : after ∉ B := (List.nodup_cons.1 hcb).1
  simp only [insert_before]
  rw [setNext_prev, hq]
  rw [show (setPrev (setPrev (setNext h i (some after)) i
        (some (A2.getLastD x))) after (some i) p).child = (h p).child by
    rw [setPrev_child, setPrev_child, setNext_child]]
  rw [hchild, if_neg (fun e => hxa (Option.some.inj e))]
  rw [show (setPrev (setPrev (setNext h i (some after)) i
        (some (A2.getLastD x))) after (some i) i).prev =
      some (A2.getLastD x) by
    rw [setPrev_prev, if_neg hia, setPrev_prev, if_pos rfl]]
  rw [setNextO_some]
  simp only [chainOk, Bool.and_eq_true, decide_eq_true_eq]
  refine ⟨⟨⟨?_, ?_⟩, ?_⟩, ?_⟩
  · rw [setNext_child, setPrev_child, setPrev_child, setNext_child]
    exact hchild
  · refine chainNexts_splice h _ A2 x i after B hnext ?_ ?_ ?_ hnd
    · rw [setNext_next, if_pos rfl]
    · rw [setNext_next, if_neg (Ne.symm hqi), setPrev_next, setPrev_next,
        setNext_next, if_pos rfl]
    · intro z hz hzq
      have hzi : z ≠ i := fun e => hi (e ▸ hz)
      rw [setNext_next, if_neg hzq, setPrev_next, setPrev_next, setNext_next,
        if_neg hzi]
  · rw [setNext_prev, setPrev_prev, if_neg hxa, setPrev_prev, if_neg hxi,
      setNext_prev, hhead, getLastD_append_cons, getLastD_append_cons,
      List.getLastD_cons]
  · refine chainPrevs_splice h _ A2 x i after B hprevs ?_ ?_ ?_
    · rw [setNext_prev, setPrev_prev, if_neg hia, setPrev_prev, if_pos rfl]
    · rw [setNext_prev, setPrev_prev, if_pos rfl]
    · intro z hz
      have hz2 : z ∈ x :: (A2 ++ after :: B) := by
        simp only [List.mem_cons, List.mem_append] at hz ⊢
        tauto
      have hzi : z ≠ i := fun e => hi (e ▸ hz2)
      have hza : z ≠ after := by
        intro e
        subst e
        rcases List.mem_append.1 hz with h2 | h2
        · exact haA h2
        · exact haB h2
      rw [setNext_prev, setPrev_prev, if_neg hza, setPrev_prev, if_neg hzi,
        setNext_prev]

theorem insert_preserves_chainOk (h : Heap) (p i : Nat) (l : List Nat) (w : Nat)
    (hok : chainOk h p l = true) (hp : p ∉ l) (hi : i ∉ l) (hip : i ≠ p)
    (hfresh : (h i).next = none) (hnd : l.Nodup) :
    chainOk (stb_json_insertiteminarray h p (w : Int) i) p
      (l.take w ++ i :: l.drop w) = true := by
  unfold stb_json_insertiteminarray
  rw [if_neg (not_lt.2 (Int.natCast_nonneg w)), Int.toNat_natCast]
  cases l with
  | nil =>
      have hok2 := hok
      simp only [chainOk, decide_eq_true_eq] at hok2
      have hwalk : get_array_item_heap h p w = none := by
        unfold get_array_item_heap
        rw [hok2]
        cases w <;> rfl
      rw [hwalk]
      have := add_preserves_chainOk h p i [] hok hp hi hip hfresh hnd
      simpa using this
  | cons x rest =>
      have hcomp := hok
      simp only [chainOk, Bool.and_eq_true, decide_eq_true_eq] at hcomp
      obtain ⟨⟨⟨hchild, hnext⟩, hhead⟩, hprevs⟩ := hcomp
      have hget : get_array_item_heap h p w = (x :: rest).get? w := by
        unfold get_array_item_heap
        rw [hchild]
        exact walk_chainNexts h rest x hnext w
      rw [hget]
      cases hw : (x :: rest).get? w with
      | none =>
          have hlen : (x :: rest).length ≤ w := List.get?_eq_none.1 hw
          rw [List.take_of_length_le hlen, List.drop_of_length_le hlen]
          exact add_preserves_chainOk h p i (x :: rest) hok hp hi hip hfresh hnd
      | some after =>
          show chainOk (insert_before h p after i) p
            ((x :: rest).take w ++ i :: (x :: rest).drop w) = true
          revert hw
          cases w with
          | zero =>
              intro hw
              have hax : x = after := Option.some.inj hw
              rw [← hax]
              show chainOk (insert_before h p x i) p (i :: x :: rest) = true
              exact insert_before_head h p i x rest hchild hnext hhead hprevs hi hnd
          | succ k =>
              intro hw
              have hrk : rest.get? k = some after := hw
              have hklen : k < rest.length := by
                by_contra hge
                rw [List.get?_eq_none.2 (not_lt.1 hge)] at hrk
                cases hrk
              obtain ⟨A2, B, hrest, hlenA⟩ :
                  ∃ A2 B, rest = A2 ++ after :: B ∧ A2.length = k :=
                ⟨rest.take k, rest.drop (k + 1), take_get_drop rest k after hrk,
                  by rw [List.length_take]; omega⟩
              subst hrest
              have htake : (x :: (A2 ++ after :: B)).take (k + 1) = x :: A2 := by
                rw [List.take_succ_cons, take_append_len A2 _ k hlenA]
              have hdrop : (x :: (A2 ++ after :: B)).drop (k + 1) = after :: B := by
                rw [List.drop_succ_cons, drop_append_len A2 _ k hlenA]
              rw [htake, hdrop, List.cons_append]
              exact insert_before_mid h p i x after A2 B hchild hnext hhead
                hprevs hi hnd

theorem setPrevO_some (h : Heap) (n : Nat) (v : Option Nat) :
    setPrevO h (some n) v = setPrev h n v := rfl

theorem setPrevO_none (h : Heap) (v : Option Nat) : setPrevO h none v = h := rfl

theorem detach_preserves_chainOk (h : Heap) (p i : Nat) (A B : List Nat)
    (hok : chainOk h p (A ++ i :: B) = true) (hp : p ∉ A ++ i :: B)
    (hnd : (A ++ i :: B).Nodup) :
    chainOk (stb_json_detachitemviapointer h p i) p (A ++ B) = true := by
  simp only [stb_json_detachitemviapointer]
  cases A with
  | nil =>
      have hcomp := hok
      simp only [List.nil_append, chainOk, Bool.and_eq_true,
        decide_eq_true_eq] at hcomp
      obtain ⟨⟨⟨hchild, hnext⟩, hhead⟩, hprevs⟩ := hcomp
      rw [if_neg (show ¬((h p).child ≠ some i ∧ (h i).prev = none) from
        fun hc => hc.1 hchild)]
      have e1 : (if (h p).child ≠ some i then
          setNextO h ((h i).prev) ((h i).next) else h) = h :=
        if_neg (fun hc => hc hchild)
      rw [e1]
      cases B with
      | nil =>
          simp only [chainNexts, decide_eq_true_eq] at hnext
          rw [hnext, setPrevO_none]
          rw [if_pos hchild]
          simp only [List.nil_append, chainOk, decide_eq_true_eq]
          rw [setNext_child, setPrev_child, setChild_child, if_pos rfl]
          exact hnext
      | cons b B2 =>
          simp only [chainNexts, Bool.and_eq_true, decide_eq_true_eq] at hnext
          obtain ⟨hib, hnextB⟩ := hnext
          rw [List.getLastD_cons] at hhead
          have hiout : i ∉ b :: B2 := (List.nodup_cons.1 hnd).1
          have hbi : b ≠ i := fun e => hiout (e ▸ List.mem_cons_self b B2)
          have hbB2 : b ∉ B2 := (List.nodup_cons.1 (List.nodup_cons.1 hnd).2).1
          simp only [chainPrevs, Bool.and_eq_true, decide_eq_true_eq] at hprevs
          rw [hib, hhead, setPrevO_some]
          have e3 : (setPrev h b (some (B2.getLastD b)) p).child = (h p).child :=
            setPrev_child h b _ p
          rw [e3, if_pos hchild]
          have e4 : (setPrev h b (some (B2.getLastD b)) i).next = (h i).next :=
            setPrev_next h b _ i
          rw [e4, hib]
          simp only [List.nil_append, chainOk, Bool.and_eq_true,
            decide_eq_true_eq]
          refine ⟨⟨⟨?_, ?_⟩, ?_⟩, ?_⟩
          · rw [setNext_child, setPrev_child, setChild_child, if_pos rfl]
          · refine (chainNexts_congr h _ B2 b ?_).trans hnextB
            intro z hz
            have hzi : z ≠ i := fun e => hiout (e ▸ hz)
            rw [setNext_next, if_neg hzi, setPrev_next, setChild_next,
              setPrev_next]
          · rw [setNext_prev, setPrev_prev, if_neg hbi, setChild_prev,
              setPrev_prev, if_pos rfl]
          · refine (chainPrevs_congr h _ B2 b ?_).trans hprevs.2
            intro z hz
            have hzi : z ≠ i := fun e => hiout (e ▸ List.mem_cons_of_mem b hz)
            have hzb : z ≠ b := fun e => hbB2 (e ▸ hz)
            rw [setNext_prev, setPrev_prev, if_neg hzi, setChild_prev,
              setPrev_prev, if_neg hzb]
  | cons a A2 =>
      have hcomp := hok
      simp only [List.cons_append, chainOk, Bool.and_eq_true,
        decide_eq_true_eq] at hcomp
      obtain ⟨⟨⟨hchild, hnext⟩, hhead⟩, hprevs⟩ := hcomp
      have hq : (h i).prev = some (A2.getLastD a) :=
        chainPrevs_at h A2 a i B hprevs
      have hin : (h i).next = B.head? := chainNexts_at h A2 a i B hnext
      have hatail : a ∉ A2 ++ i :: B := (List.nodup_cons.1 hnd).1
      have hai : a ≠ i := fun e => hatail (by simp [e])
      rcases List.nodup_append.1 (List.nodup_cons.1 hnd).2 with
        ⟨hA2nd, hibnd, hdisj⟩
      have hiA2 : i ∉ A2 := fun e => hdisj e (List.mem_cons_self i B)
      have hiB : i ∉ B := (List.nodup_cons.1 hibnd).1
      have hqmem : A2.getLastD a ∈ a :: A2 := getLastD_mem A2 a
      have hqi : A2.getLastD a ≠ i := by
        intro e
        rcases List.mem_cons.1 (e ▸ hqmem) with e2 | e2
        · exact hai e2.symm
        · exact hiA2 e2
      rw [if_neg (show ¬((h p).child ≠ some i ∧ (h i).prev = none) by
        simp [hq])]
      have e1 : (if (h p).child ≠ some i then
          setNextO h ((h i).prev) ((h i).next) else h) =
          setNext h (A2.getLastD a) ((h i).next) := by
        rw [if_pos (show (h p).child ≠ some i by
          rw [hchild]; exact fun e => hai (Option.some.inj e))]
        rw [hq, setNextO_some]
      rw [e1]
      have e2n : (setNext h (A2.getLastD a) ((h i).next) i).next = (h i).next := by
        rw [setNext_next, if_neg (fun e => hqi e.symm)]
      have e2p : (setNext h (A2.getLastD a) ((h i).next) i).prev = (h i).prev :=
        setNext_prev h _ _ i
      rw [e2n, e2p, hq]
      cases B with
      | nil =>
          rw [List.head?_nil] at hin
          rw [hin, setPrevO_none]
          have e3 : (setNext h (A2.getLastD a) none p).child = (h p).child :=
            setNext_child h _ _ p
          rw [e3, hchild]
          rw [if_neg (fun e => hai (Option.some.inj e))]
          have e4 : (setNext h (A2.getLastD a) none i).next = none := by
            rw [setNext_next, if_neg (fun e => hqi e.symm)]
            exact hin
          rw [e4, if_pos rfl]
          have e5 : (setNext h (A2.getLastD a) none i).prev = (h i).prev :=
            setNext_prev h _ _ i
          rw [e5, hq]
          rw [setPrevO_some]
          simp only [List.cons_append, chainOk, Bool.and_eq_true,
            decide_eq_true_eq]
          refine ⟨⟨⟨?_, ?_⟩, ?_⟩, ?_⟩
          · rw [setNext_child, setPrev_child, setPrev_child, setNext_child]
            exact hchild
          · refine chainNexts_unsplice h _ A2 a i [] hnext ?_ ?_ hnd
            · rw [setNext_next, if_neg hqi, setPrev_next, setPrev_next,
                setNext_next, if_pos rfl]
              rfl
            · intro z hz hzq
              have hzi : z ≠ i := by
                intro e
                subst e
                simp only [List.mem_cons, List.mem_append] at hz
                rcases hz with e2 | e2 | e2
                · exact hai e2.symm
                · exact hiA2 e2
                · cases e2
              rw [setNext_next, if_neg hzi, setPrev_next, setPrev_next,
                setNext_next, if_neg hzq]
          · rw [List.append_nil, setNext_prev, setPrev_prev, if_neg hai,
              setPrev_prev, if_pos rfl]
          · rw [List.append_nil]
            refine (chainPrevs_congr h _ A2 a ?_).trans
              (chainPrevs_append_left h A2 a (i :: []) hprevs)
            intro z hz
            have hza : z ≠ a := by
              intro e
              exact hatail (e ▸ List.mem_append.2 (Or.inl hz))
            have hzi : z ≠ i := fun e => hiA2 (e ▸ hz)
            rw [setNext_prev, setPrev_prev, if_neg hzi, setPrev_prev,
              if_neg hza, setNext_prev]
      | cons b B2 =>
          have hib2 : i ∉ b :: B2 := (List.nodup_cons.1 hibnd).1
          have hbi : b ≠ i := fun e => hib2 (e ▸ List.mem_cons_self b B2)
          have hbA2 : b ∉ A2 :=
            fun e => hdisj e (List.mem_cons_of_mem i (List.mem_cons_self b B2))
          have hbB2 : b ∉ B2 :=
            (List.nodup_cons.1 (List.nodup_cons.1 hibnd).2).1
          have hab : a ≠ b := by
            intro e
            refine hatail (e ▸ ?_)
            simp only [List.mem_append, List.mem_cons]
            tauto
          rw [List.head?_cons] at hin
          rw [hin, setPrevO_some]
          have e3 : (setPrev (setNext h (A2.getLastD a) (some b)) b
              (some (A2.getLastD a)) p).child = (h p).child := by
            rw [setPrev_child, setNext_child]
          rw [e3, hchild, if_neg (fun e => hai (Option.some.inj e))]
          have e4 : (setPrev (setNext h (A2.getLastD a) (some b)) b
              (some (A2.getLastD a)) i).next = some b := by
            rw [setPrev_next, setNext_next, if_neg (fun e => hqi e.symm)]
            exact hin
          rw [e4, if_neg (show ¬(some b = none) from fun e =>
            Option.noConfusion e)]
          simp only [List.cons_append, chainOk, Bool.and_eq_true,
            decide_eq_true_eq]
          refine ⟨⟨⟨?_, ?_⟩, ?_⟩, ?_⟩
          · rw [setNext_child, setPrev_child, setPrev_child, setNext_child]
            exact hchild
          · refine chainNexts_unsplice h _ A2 a i (b :: B2) hnext ?_ ?_ hnd
            · rw [setNext_next, if_neg hqi, setPrev_next, setPrev_next,
                setNext_next, if_pos rfl]
              rfl
            · intro z hz hzq
              have hzi : z ≠ i := by
                intro e
                subst e
                simp only [List.mem_cons, List.mem_append] at hz
                rcases hz with e2 | e2 | e2
                · exact hai e2.symm
                · exact hiA2 e2
                · exact hib2 (List.mem_cons.2 e2)
              rw [setNext_next, if_neg hzi, setPrev_next, setPrev_next,
                setNext_next, if_neg hzq]
          · rw [setNext_prev, setPrev_prev, if_neg hai, setPrev_prev,
              if_neg hab, setNext_prev, hhead, getLastD_append_cons,
              getLastD_append_cons, List.getLastD_cons]
          · refine chainPrevs_unsplice h _ A2 a i b B2 hprevs ?_ ?_
            · rw [setNext_prev, setPrev_prev, if_neg hbi, setPrev_prev,
                if_pos rfl]
            · intro z hz
              have hzi : z ≠ i := by
                intro e
                subst e
                rcases List.mem_append.1 hz with e2 | e2
                · exact hiA2 e2
                · exact hib2 (List.mem_cons_of_mem b e2)
              have hzb : z ≠ b := by
                intro e
                subst e
                rcases List.mem_append.1 hz with e2 | e2
                · exact hbA2 e2
                · exact hbB2 e2
              rw [setNext_prev, setPrev_prev, if_neg hzi, setPrev_prev,
                if_neg hzb, setNext_prev]

/-- Claim C9 (confirmed): the three child-list mutations preserve the
child-list invariant.  `chainOk h p l` states that `l` is exactly the
child chain of `p` and includes the claim's two conditions — the tail's
`next` is NULL (last case of `chainNexts`) and the head's `prev` points
at the tail (`rest.getLastD x`) — together with the remaining
doubly-linked structure that makes the invariant inductive.  Append
(`add_item_to_array`), insert at any index (`stb_json_insertiteminarray`,
both its in-range splice and its fall-through append), and detach
(`stb_json_detachitemviapointer`, head, middle and tail) all preserve it,
for a fresh item (`next = NULL`, not in the list) and a parent outside
its own child list. -/
theorem claim_C9 :
    (∀ (h : Heap) (p i : Nat) (l : List Nat),
        chainOk h p l = true → p ∉ l → i ∉ l → i ≠ p → (h i).next = none →
        l.Nodup → chainOk (add_item_to_array h p i) p (l ++ [i]) = true) ∧
    (∀ (h : Heap) (p i : Nat) (l : List Nat) (w : Nat),
        chainOk h p l = true → p ∉ l → i ∉ l → i ≠ p → (h i).next = none →
        l.Nodup →
        chainOk (stb_json_insertiteminarray h p (w : Int) i) p
          (l.take w ++ i :: l.drop w) = true) ∧
    (∀ (h : Heap) (p i : Nat) (A B : List Nat),
        chainOk h p (A ++ i :: B) = true → p ∉ A ++ i :: B →
        (A ++ i :: B).Nodup →
        chainOk (stb_json_detachitemviapointer h p i) p (A ++ B) = true) :=
  ⟨add_preserves_chainOk, insert_preserves_chainOk, detach_preserves_chainOk⟩

theorem claim_C9_witness :
    chainOk (add_item_to_array c9heap 0 1) 0 ([] ++ [1]) = true ∧
    chainOk (stb_json_insertiteminarray c9heap2 0 ((0 : Nat) : Int) 2) 0
      ([1].take 0 ++ 2 :: [1].drop 0) = true ∧
    chainOk (stb_json_detachitemviapointer c9heap2 0 1) 0 ([] ++ []) = true :=
  ⟨claim_C9.1 c9heap 0 1 [] (by decide) (by decide) (by decide) (by decide)
      (by decide) (by decide),
   claim_C9.2.1 c9heap2 0 2 [1] 0 (by decide) (by decide) (by decide)
      (by decide) (by decide) (by decide),
   claim_C9.2.2 c9heap2 0 1 [] [] (by decide) (by decide) (by decide)⟩

end StbJson

namespace StbJson

mutual

theorem PermEq_refl : (v : Value) → PermEq v v
  | .mk k r c vs i d s ch => by
      cases k
      case object =>
        exact PermEq.object r c vs i d s ch ch ch (PtwEq_refl ch) (List.Perm.refl ch)
      all_goals exact PermEq.other _ r c vs i d s ch ch (by simp) (PtwEq_refl ch)
termination_by structural v => v

theorem PtwEq_refl : (l : List Value) → PtwEq l l
  | [] => PtwEq.nil
  | a :: as2 => PtwEq.cons a a as2 as2 (PermEq_refl a) (PtwEq_refl as2)
termination_by structural l => l

end

theorem perm_ptw_commute : ∀ {l1 mid l2 : List Value},
    l1.Perm mid → PtwEq mid l2 → ∃ m2, PtwEq l1 m2 ∧ m2.Perm l2 := by
  intro l1 mid l2 hp
  induction hp generalizing l2 with
  | nil =>
      intro hptw
      cases hptw
      exact ⟨[], PtwEq.nil, List.Perm.nil⟩
  | cons x p ih =>
      intro hptw
      cases hptw with
      | cons _ b _ bs hxb hbs =>
          obtain ⟨m2, h1, h2⟩ := ih hbs
          exact ⟨b :: m2, PtwEq.cons _ _ _ _ hxb h1, h2.cons b⟩
  | swap x y l =>
      intro hptw
      cases hptw with
      | cons _ a _ t1 hxa ht1 =>
          cases ht1 with
          | cons _ b _ t hyb ht =>
              exact ⟨b :: a :: t,
                PtwEq.cons _ _ _ _ hyb (PtwEq.cons _ _ _ _ hxa ht),
                List.Perm.swap a b t⟩
  | trans p1 p2 ih1 ih2 =>
      intro hptw
      obtain ⟨m2, hptw2, hperm2⟩ := ih2 hptw
      obtain ⟨m1, hptw1, hperm1⟩ := ih1 hptw2
      exact ⟨m1, hptw1, hperm1.trans hperm2⟩

theorem merge_perm : ∀ (f : Nat) (cs : Bool) (l1 l2 : List Value),
    (merge_key_lists f cs l1 l2).Perm (l1 ++ l2) := by
  intro f
  induction f with
  | zero => intro cs l1 l2; exact List.Perm.refl _
  | succ f ih =>
      intro cs l1 l2
      cases l1 with
      | nil => simp [merge_key_lists]
      | cons a l1 =>
          cases l2 with
          | nil => simp [merge_key_lists]
          | cons b l2 =>
              simp only [merge_key_lists]
              split
              · exact (ih cs l1 (b :: l2)).cons a
              · exact ((ih cs (a :: l1) l2).cons b).trans List.perm_middle.symm

theorem sort_perm : ∀ (f : Nat) (cs : Bool) (l : List Value),
    (sort_list f cs l).Perm l := by
  intro f
  induction f with
  | zero => intro cs l; exact List.Perm.refl _
  | succ f ih =>
      intro cs l
      simp only [sort_list]
      split
      · exact List.Perm.refl _
      · refine (merge_perm _ cs _ _).trans ?_
        refine ((ih cs _).append (ih cs _)).trans ?_
        rw [List.take_append_drop]

/-- `compare_json` and the fused TEST traversal return operands that are
`PermEq` to the inputs: comparison mutates only the order of object
members. -/
theorem compare_preserves : ∀ f : Nat,
    (∀ a b cs, PermEq a (compare_json f a b cs).2.1 ∧
        PermEq b (compare_json f a b cs).2.2) ∧
    (∀ l1 l2 cs, PtwEq l1 (compare_children f l1 l2 cs).2.1 ∧
        PtwEq l2 (compare_children f l1 l2 cs).2.2) ∧
    (∀ l1 l2 cs, PtwEq l1 (compare_object_children f l1 l2 cs).2.1 ∧
        PtwEq l2 (compare_object_children f l1 l2 cs).2.2) ∧
    (∀ el ptr v cs, PermEq el (test_at f el ptr v cs).2.1) ∧
    (∀ ch idx ptr v cs, PtwEq ch (test_at_list f ch idx ptr v cs).2.1) ∧
    (∀ ch seg nptr v cs, PtwEq ch (test_at_object f ch seg nptr v cs).2.1) := by
  intro f
  induction f with
  | zero =>
      refine ⟨?_, ?_, ?_, ?_, ?_, ?_⟩
      · intro a b cs; exact ⟨PermEq_refl a, PermEq_refl b⟩
      · intro l1 l2 cs; exact ⟨PtwEq_refl l1, PtwEq_refl l2⟩
      · intro l1 l2 cs; exact ⟨PtwEq_refl l1, PtwEq_refl l2⟩
      · intro el ptr v cs; exact PermEq_refl el
      · intro ch idx ptr v cs; exact PtwEq_refl ch
      · intro ch seg nptr v cs; exact PtwEq_refl ch
  | succ f ih =>
      obtain ⟨ihc, ihcc, ihoc, ihta, ihtl, ihto⟩ := ih
      refine ⟨?_, ?_, ?_, ?_, ?_, ?_⟩
      · -- compare_json
        intro a b cs
        obtain ⟨ka, ra, fa, vsa, ia, da, sa, cha⟩ := a
        obtain ⟨kb, rb, fb, vsb, ib, db, sb, chb⟩ := b
        by_cases hk : ka = kb
        · subst hk
          have hne : ¬ (ka ≠ ka) := fun h => h rfl
          simp only [compare_json, if_neg hne]
          cases ka
          · exact ⟨PermEq_refl _, PermEq_refl _⟩
          · exact ⟨PermEq_refl _, PermEq_refl _⟩
          · exact ⟨PermEq_refl _, PermEq_refl _⟩
          · exact ⟨PermEq_refl _, PermEq_refl _⟩
          · exact ⟨PermEq_refl _, PermEq_refl _⟩
          · exact ⟨PermEq_refl _, PermEq_refl _⟩
          · rcases hcomp : compare_children f cha chb cs with ⟨ok, ca2, cb2⟩
            have hp := ihcc cha chb cs
            rw [hcomp] at hp
            exact ⟨PermEq.other _ _ _ _ _ _ _ _ _ (by simp) hp.1,
              PermEq.other _ _ _ _ _ _ _ _ _ (by simp) hp.2⟩
          · rcases hcomp : compare_object_children f (sort_list f cs cha)
                (sort_list f cs chb) cs with ⟨ok, ca2, cb2⟩
            have hp := ihoc (sort_list f cs cha) (sort_list f cs chb) cs
            rw [hcomp] at hp
            obtain ⟨m1, hm1, hq1⟩ :=
              perm_ptw_commute (sort_perm f cs cha).symm hp.1
            obtain ⟨m2, hm2, hq2⟩ :=
              perm_ptw_commute (sort_perm f cs chb).symm hp.2
            exact ⟨PermEq.object _ _ _ _ _ _ _ m1 _ hm1 hq1,
              PermEq.object _ _ _ _ _ _ _ m2 _ hm2 hq2⟩
          · exact ⟨PermEq_refl _, PermEq_refl _⟩

        · simp only [compare_json, if_pos hk]
          exact ⟨PermEq_refl _, PermEq_refl _⟩
      · -- compare_children
        intro l1 l2 cs
        cases l1 with
        | nil =>
            cases l2 with
            | nil => exact ⟨PtwEq.nil, PtwEq.nil⟩
            | cons b bs => exact ⟨PtwEq.nil, PtwEq_refl _⟩
        | cons a as2 =>
            cases l2 with
            | nil => exact ⟨PtwEq_refl _, PtwEq.nil⟩
            | cons b bs =>
                rcases hc : compare_json f a b cs with ⟨ok, a2, b2⟩
                have hab := ihc a b cs
                rw [hc] at hab
                simp only [compare_children, hc]
                cases ok with
                | false =>
                    exact ⟨PtwEq.cons _ _ _ _ hab.1 (PtwEq_refl _),
                      PtwEq.cons _ _ _ _ hab.2 (PtwEq_refl _)⟩
                | true =>
                    rcases hc2 : compare_children f as2 bs cs with ⟨ok2, as3, bs3⟩
                    have hrest := ihcc as2 bs cs
                    rw [hc2] at hrest
                    simp only [hc2]
                    exact ⟨PtwEq.cons _ _ _ _ hab.1 hrest.1,
                      PtwEq.cons _ _ _ _ hab.2 hrest.2⟩
      · -- compare_object_children
        intro l1 l2 cs
        cases l1 with
        | nil =>
            cases l2 with
            | nil => exact ⟨PtwEq.nil, PtwEq.nil⟩
            | cons b bs => exact ⟨PtwEq.nil, PtwEq_refl _⟩
        | cons a as2 =>
            cases l2 with
            | nil => exact ⟨PtwEq_refl _, PtwEq.nil⟩
            | cons b bs =>
                simp only [compare_object_children]
                split
                · exact ⟨PtwEq_refl _, PtwEq_refl _⟩
                · rcases hc : compare_json f a b cs with ⟨ok, a2, b2⟩
                  have hab := ihc a b cs
                  rw [hc] at hab
                  simp only [hc]
                  cases ok with
                  | false =>
                      exact ⟨PtwEq.cons _ _ _ _ hab.1 (PtwEq_refl _),
                        PtwEq.cons _ _ _ _ hab.2 (PtwEq_refl _)⟩
                  | true =>
                      rcases hc2 : compare_object_children f as2 bs cs with
                        ⟨ok2, as3, bs3⟩
                      have hrest := ihoc as2 bs cs
                      rw [hc2] at hrest
                      simp only [hc2]
                      exact ⟨PtwEq.cons _ _ _ _ hab.1 hrest.1,
                        PtwEq.cons _ _ _ _ hab.2 hrest.2⟩
      · -- test_at
        intro el ptr v cs
        cases ptr with
        | nil => exact (ihc el v cs).1
        | cons c rest =>
            by_cases hc47 : c = 47
            · subst hc47
              obtain ⟨k, r, fl, vs, i, d, s, ch⟩ := el
              simp only [test_at, Value.kind, Value.children]
              rw [if_pos trivial]
              by_cases hka : k = .array
              · subst hka
                rw [if_pos rfl]
                cases hdec : decode_array_index_from_pointer rest with
                | none => exact PermEq_refl _
                | some idx =>
                    exact PermEq.other _ _ _ _ _ _ _ _ _ (by simp)
                      (ihtl ch idx (rest.dropWhile (fun c2 => c2 ≠ 47)) v cs)
              · by_cases hko : k = .object
                · subst hko
                  rw [if_neg (by simp), if_pos rfl]
                  exact PermEq.object _ _ _ _ _ _ _ _ _
                    (ihto ch rest (rest.dropWhile (fun c2 => c2 ≠ 47)) v cs)
                    (List.Perm.refl _)
                · rw [if_neg hka, if_neg hko]
                  exact PermEq_refl _
            · simp only [test_at]
              rw [if_neg hc47]
              exact (ihc el v cs).1
      · -- test_at_list
        intro ch idx ptr v cs
        cases ch with
        | nil => exact PtwEq.nil
        | cons c rest =>
            cases idx with
            | zero =>
                rcases ht : test_at f c ptr v cs with ⟨ok, c2, v2⟩
                have hp := ihta c ptr v cs
                rw [ht] at hp
                simp only [test_at_list, ht]
                exact PtwEq.cons _ _ _ _ hp (PtwEq_refl _)
            | succ k =>
                rcases ht : test_at_list f rest k ptr v cs with ⟨ok, rest2, v2⟩
                have hp := ihtl rest k ptr v cs
                rw [ht] at hp
                simp only [test_at_list, ht]
                exact PtwEq.cons _ _ _ _ (PermEq_refl _) hp
      · -- test_at_object
        intro ch seg nptr v cs
        cases ch with
        | nil => exact PtwEq.nil
        | cons c rest =>
            simp only [test_at_object]
            split
            · split
              · exact PtwEq.cons _ _ _ _ (ihta c nptr v cs) (PtwEq_refl _)
              · exact PtwEq.cons _ _ _ _ (PermEq_refl _)
                  (ihto rest seg nptr v cs)
            · exact PtwEq.cons _ _ _ _ (PermEq_refl _)
                (ihto rest seg nptr v cs)

theorem apply_patch_test_perm :
    ∀ (f : Nat) (object patch : Value) (cs : Bool) (r : Int) (object2 : Value),
      apply_patch_test f object patch cs = some (r, object2) →
      PermEq object object2 := by
  intro f object patch cs r object2 h
  simp only [apply_patch_test] at h
  split at h
  · simp only [Option.some.injEq, Prod.mk.injEq] at h
    rw [← h.2]
    exact PermEq_refl _
  · split_ifs at h with hk
    · simp only [Option.some.injEq, Prod.mk.injEq] at h
      rw [← h.2]
      exact PermEq_refl _
    · split at h
      · simp only [Option.some.injEq, Prod.mk.injEq] at h
        rw [← h.2]
        exact PermEq_refl _
      · split at h
        · simp only [Option.some.injEq, Prod.mk.injEq] at h
          rw [← h.2]
          exact PermEq_refl _
        · split at h
          · simp only [Option.some.injEq, Prod.mk.injEq] at h
            rw [← h.2]
            exact PermEq_refl _
          · simp only [Option.some.injEq, Prod.mk.injEq] at h
            rw [← h.2]
            exact (compare_preserves f).2.2.2.1 object _ _ cs
      · simp at h

/-- Claim C4 (corrected): a TEST patch operation returns status 0 exactly
when `compare_json` finds the value at the path equal to the operation's
value, and it preserves the document only up to the order of object
members (`PermEq`): `compare_json` sorts every object it compares
(src lines 2037-2038), so a TEST can and does reorder the document's
members, contradicting the claim's "does not mutate the document in any
way".  The concrete parts: testing `{"b":1,"a":2}` at path "" against an
equal value succeeds (status 0) and leaves the document with its members
re-sorted to `{"a":2,"b":1}`; the same test against `{"b":1,"a":3}` fails
(status 1) and also re-sorts the document. -/
theorem claim_C4 :
    (∀ (f : Nat) (object patch : Value) (cs : Bool) (r : Int) (object2 : Value),
        apply_patch_test f object patch cs = some (r, object2) →
        PermEq object object2) ∧
    apply_patch_test 32 c4doc c4patch false = some (0, c4docS) ∧
    apply_patch_test 32 c4doc c4patchBad false = some (1, c4docS) :=
  ⟨apply_patch_test_perm, by decide, by decide⟩

/-- Claim C4 counterexample: a successful TEST (status 0) mutates the
document: the object's members come back in a different order. -/
theorem claim_C4_counterexample :
    apply_patch_test 32 c4doc c4patch false = some (0, c4docS) ∧
    c4docS ≠ c4doc := by decide

theorem claim_C4_witness : PermEq c4doc c4docS :=
  claim_C4.1 32 c4doc c4patch false 0 c4docS (by decide)

end StbJson
